import Mathlib

/-!
Verification development for the corpus-analysis engines of this repository:
the lexical frequency engine (`frequency.py`), the terminological index
builder (`term_index.py`) and the entity aggregation engine (`ner.py`).

Texts are modelled as `List Char`.  Python floats are modelled by exact
rationals (`ℚ`); the opaque `math.log` call is modelled by an arbitrary
parameter `logFn : ℚ → ℚ`, and the opaque morphological / NER capabilities
(pymorphy3, natasha, spaCy) by explicit capability records, mirroring the
way the source treats them as external.  Python's `\w` word class is
modelled over the ASCII + Cyrillic fragment the repository works with.
-/

namespace CurseNlp

/-- Model of the regex character class `[а-яёa-z]` used by both tokenizers
in `term_index.py` (lowercase Latin or lowercase Cyrillic letters). -/
def isTermChar (c : Char) : Bool :=
  ('a' ≤ c && c ≤ 'z') || ('а' ≤ c && c ≤ 'я') || c = 'ё'

/-- Cyrillic block U+0400–U+04FF. -/
def isCyrillicChar (c : Char) : Bool :=
  'Ѐ' ≤ c && c ≤ 'ӿ'

/-- Model of Python's regex word class `\w` over the ASCII + Cyrillic
fragment: ASCII alphanumerics, underscore, and Cyrillic letters. -/
def isWordChar (c : Char) : Bool :=
  c.isAlphanum || c = '_' || isCyrillicChar c

/-- Model of Python's `\s` (ASCII whitespace). -/
def isSpaceChar (c : Char) : Bool :=
  c = ' ' || c = '\t' || c = '\n' || c = '\r' || c = '\x0b' || c = '\x0c'

/-- Uppercase letter class `[А-ЯЁA-Z]` used by the abbreviation and person
patterns in the source. -/
def isUpperAlpha (c : Char) : Bool :=
  ('A' ≤ c && c ≤ 'Z') || ('А' ≤ c && c ≤ 'Я') || c = 'Ё'

/-- Lowercase letter class `[а-яёa-z]` as used in the person patterns. -/
def isLowerAlpha (c : Char) : Bool := isTermChar c

/-- Model of `str.lower()` on the ASCII + Cyrillic fragment. -/
def lowerChar (c : Char) : Char :=
  if 'A' ≤ c && c ≤ 'Z' then Char.ofNat (c.toNat + 32)
  else if 'А' ≤ c && c ≤ 'Я' then Char.ofNat (c.toNat + 32)
  else if c = 'Ё' then 'ё'
  else c

/-- Model of `str.upper()` on a single char (used by `str.capitalize()`). -/
def upperChar (c : Char) : Char :=
  if 'a' ≤ c && c ≤ 'z' then Char.ofNat (c.toNat - 32)
  else if 'а' ≤ c && c ≤ 'я' then Char.ofNat (c.toNat - 32)
  else if c = 'ё' then 'Ё'
  else c

/-- Model of Python `str.capitalize()`: first char uppercased, rest
lowercased. -/
def capitalizeStr (s : List Char) : List Char :=
  match s with
  | [] => []
  | c :: cs => upperChar c :: cs.map lowerChar

/-- Single pass collecting maximal runs of characters satisfying `p`;
`acc` holds the current run, reversed. -/
def runsByGo (p : Char → Bool) : List Char → List Char → List (List Char)
  | [], acc => if acc = [] then [] else [acc.reverse]
  | c :: cs, acc =>
    if p c then runsByGo p cs (c :: acc)
    else if acc = [] then runsByGo p cs []
    else acc.reverse :: runsByGo p cs []

/-- Maximal runs of characters satisfying `p`; characters failing `p` act
as delimiters and are dropped. -/
def runsBy (p : Char → Bool) (l : List Char) : List (List Char) :=
  runsByGo p l []

/-- Model of Python `str.split()` (split on whitespace runs, no empty
parts). -/
def splitWS (s : List Char) : List (List Char) :=
  runsBy (fun c => !isSpaceChar c) s

/-- Join a list of words with single spaces, as `' '.join(...)`. -/
def joinSpaces (ws : List (List Char)) : List Char :=
  List.intercalate [' '] ws

/-- Model of `' '.join(s.split())`: collapse internal whitespace. -/
def collapseWS (s : List Char) : List Char :=
  joinSpaces (splitWS s)

/-!
Tokenization in `term_index.py`.

`extract_terms` (line 42) uses `re.findall(r'\b[а-яёa-z]{3,}\b', text.lower())`
while `extract_ngrams` (line 93) uses `re.findall(r'\b[а-яёa-z]+\b', text.lower())`.
A maximal `\w`-run of the lowered text produces a match exactly when all of
its characters lie in the class `[а-яёa-z]` (a run containing another word
character — a digit, underscore or out-of-class letter — admits no word
boundary inside it, so the pattern cannot match there), plus the length
constraint for the `{3,}` variant.
-/

/-- Tokenizer of `TermIndexBuilder.extract_terms`:
`re.findall(r'\b[а-яёa-z]{3,}\b', text.lower())`. -/
def tokenizeTerms (text : List Char) : List (List Char) :=
  (runsBy isWordChar (text.map lowerChar)).filter
    (fun r => r.all isTermChar && decide (3 ≤ r.length))

/-- Tokenizer of `TermIndexBuilder.extract_ngrams`:
`re.findall(r'\b[а-яёa-z]+\b', text.lower())`. -/
def tokenizeNgramWords (text : List Char) : List (List Char) :=
  (runsBy isWordChar (text.map lowerChar)).filter
    (fun r => r.all isTermChar)

/-- Contiguous n-grams: `[' '.join(words[i:i+n]) for i in range(len(words)-n+1)]`
(an empty list when `len(words) - n + 1 ≤ 0`, since Python's `range` of a
non-positive bound is empty). -/
def ngramsOf (n : ℕ) (ws : List (List Char)) : List (List Char) :=
  if ws.length < n then []
  else (List.range (ws.length - n + 1)).map (fun i => joinSpaces ((ws.drop i).take n))

section Assoc

variable {α : Type*} [DecidableEq α] {β : Type*}

/-- Update the first entry with key `k` by `f`, or append `(k, init)` when
the key is absent; models a Python dict store `d[k] = ...` (value updates
keep the key's insertion position, new keys are appended). -/
def updAssoc (k : α) (f : β → β) (init : β) : List (α × β) → List (α × β)
  | [] => [(k, init)]
  | (a, b) :: t => if a = k then (a, f b) :: t else (a, b) :: updAssoc k f init t

/-- Value of the first entry with key `k`. -/
def lookupA (k : α) (l : List (α × β)) : Option β :=
  (l.find? (fun p => decide (p.1 = k))).map (·.2)

theorem lookupA_nil (k : α) : lookupA k ([] : List (α × β)) = none := rfl

theorem lookupA_cons (k : α) (a : α) (b : β) (t : List (α × β)) :
    lookupA k ((a, b) :: t) = if a = k then some b else lookupA k t := by
  by_cases h : a = k <;> simp [lookupA, List.find?, h]

theorem lookupA_updAssoc (k k' : α) (f : β → β) (i : β) (l : List (α × β)) :
    lookupA k' (updAssoc k f i l) =
      if k = k' then some ((lookupA k l).elim i f) else lookupA k' l := by
  induction l with
  | nil => by_cases h : k = k' <;> simp [updAssoc, lookupA_cons, lookupA_nil, h]
  | cons p t ih =>
    obtain ⟨a, b⟩ := p
    by_cases hak : a = k
    · subst hak
      by_cases h : a = k' <;> simp [updAssoc, lookupA_cons, h]
    · by_cases h : k = k'
      · subst h
        simp [updAssoc, hak, lookupA_cons, ih, Ne.symm hak]
      · by_cases hak' : a = k' <;>
          simp [updAssoc, hak, lookupA_cons, ih, h, hak', Ne.symm h]

theorem keys_updAssoc (k : α) (f : β → β) (i : β) (l : List (α × β)) :
    (updAssoc k f i l).map Prod.fst =
      if k ∈ l.map Prod.fst then l.map Prod.fst else l.map Prod.fst ++ [k] := by
  induction l with
  | nil => simp [updAssoc]
  | cons p t ih =>
    obtain ⟨a, b⟩ := p
    by_cases hak : a = k
    · subst hak; simp [updAssoc]
    · by_cases hk : k ∈ t.map Prod.fst <;>
        simp [updAssoc, hak, ih, hk, Ne.symm hak]

theorem nodupKeys_updAssoc (k : α) (f : β → β) (i : β) (l : List (α × β))
    (h : (l.map Prod.fst).Nodup) : ((updAssoc k f i l).map Prod.fst).Nodup := by
  rw [keys_updAssoc]
  by_cases hk : k ∈ l.map Prod.fst
  · simpa [hk]
  · simpa [hk] using List.Nodup.append h (List.nodup_singleton k) (by simpa using hk)

theorem lookupA_of_mem {k : α} {b : β} {l : List (α × β)}
    (hmem : (k, b) ∈ l) (h : (l.map Prod.fst).Nodup) : lookupA k l = some b := by
  induction l with
  | nil => simp at hmem
  | cons p t ih =>
    obtain ⟨a, b'⟩ := p
    have hnd : a ∉ t.map Prod.fst ∧ (t.map Prod.fst).Nodup := by simpa using h
    rcases List.mem_cons.mp hmem with heq | htl
    · injection heq with h1 h2
      subst h1; subst h2
      simp [lookupA_cons]
    · have hk : a ≠ k := by
        rintro rfl
        exact hnd.1 (by simpa using List.mem_map_of_mem Prod.fst htl)
      rw [lookupA_cons, if_neg hk]
      exact ih htl hnd.2

theorem mem_of_lookupA {k : α} {b : β} {l : List (α × β)}
    (h : lookupA k l = some b) : (k, b) ∈ l := by
  obtain ⟨⟨a, b'⟩, hf, hb⟩ := Option.map_eq_some'.mp h
  have := List.find?_some hf
  simp only [decide_eq_true_eq] at this
  subst this
  simpa [← hb] using List.mem_of_find?_eq_some hf

end Assoc

section AssocFold

variable {α : Type*} [DecidableEq α] {β : Type*} {ι : Type*}
variable (key : ι → α) (f : ι → β → β) (i : ι → β)

/-- One accumulation step on the optional value stored for one key. -/
def stepOpt (m : ι) (ob : Option β) : Option β := some (ob.elim (i m) (f m))

theorem lookupA_foldl_updAssoc (ms : List ι) (acc : List (α × β)) (k : α) :
    lookupA k (ms.foldl (fun a m => updAssoc (key m) (f m) (i m) a) acc) =
      (ms.filter (fun m => decide (key m = k))).foldl
        (fun ob m => stepOpt f i m ob) (lookupA k acc) := by
  induction ms generalizing acc with
  | nil => simp
  | cons m t ih =>
    by_cases h : key m = k
    · rw [List.foldl_cons, ih, lookupA_updAssoc, if_pos h, List.filter_cons,
        if_pos (decide_eq_true h), List.foldl_cons]
      rw [h]
      rfl
    · rw [List.foldl_cons, ih, lookupA_updAssoc, if_neg h, List.filter_cons,
        if_neg (by simpa using h)]

theorem mem_keys_foldl_updAssoc (ms : List ι) (acc : List (α × β)) (k : α) :
    k ∈ ((ms.foldl (fun a m => updAssoc (key m) (f m) (i m) a) acc).map Prod.fst) ↔
      k ∈ acc.map Prod.fst ∨ k ∈ ms.map key := by
  induction ms generalizing acc with
  | nil => simp
  | cons m t ih =>
    simp only [List.foldl_cons, ih, keys_updAssoc, List.map_cons, List.mem_cons]
    by_cases h : key m ∈ acc.map Prod.fst
    · simp only [h, if_true]
      constructor
      · rintro (ha | hm)
        · exact Or.inl ha
        · exact Or.inr (Or.inr hm)
      · rintro (ha | rfl | hm)
        · exact Or.inl ha
        · exact Or.inl h
        · exact Or.inr hm
    · simp only [h, if_false, List.mem_append, List.mem_singleton]
      tauto

theorem nodupKeys_foldl_updAssoc (ms : List ι) (acc : List (α × β))
    (h : (acc.map Prod.fst).Nodup) :
    ((ms.foldl (fun a m => updAssoc (key m) (f m) (i m) a) acc).map Prod.fst).Nodup := by
  induction ms generalizing acc with
  | nil => exact h
  | cons m t ih => exact ih _ (nodupKeys_updAssoc _ _ _ _ h)

end AssocFold

section KeyGE

variable {α : Type*} {β : Type*} [LinearOrder β]

/-- Descending comparison by a key; `insertionSort (keyGE f)` models
Python's stable `sort(key=f, reverse=True)`. -/
def keyGE (f : α → β) (a b : α) : Prop := f b ≤ f a

instance (f : α → β) : DecidableRel (keyGE f) :=
  fun a b => inferInstanceAs (Decidable (f b ≤ f a))

instance (f : α → β) : IsTotal α (keyGE f) := ⟨fun a b => le_total (f b) (f a)⟩

instance (f : α → β) : IsTrans α (keyGE f) := ⟨fun _ _ _ h₁ h₂ => le_trans h₂ h₁⟩

theorem sorted_keyGE_insertionSort (f : α → β) (l : List α) :
    List.Sorted (keyGE f) (List.insertionSort (keyGE f) l) :=
  List.sorted_insertionSort (keyGE f) l

end KeyGE

section Counter

variable {α : Type*} [DecidableEq α]

/-- Model of `collections.Counter(xs)`: an insertion-ordered association
list from element to occurrence count (Python dicts keep first-insertion
order of keys). -/
def firstSeenCounts (l : List α) : List (α × ℕ) :=
  l.foldl (fun acc x => updAssoc x (· + 1) 1 acc) []

theorem nodupKeys_firstSeenCounts (l : List α) :
    ((firstSeenCounts l).map Prod.fst).Nodup :=
  nodupKeys_foldl_updAssoc (fun x : α => x) (fun _ => (· + 1)) (fun _ => 1) l [] (by simp)

theorem mem_keys_firstSeenCounts (l : List α) (k : α) :
    k ∈ (firstSeenCounts l).map Prod.fst ↔ k ∈ l := by
  simpa using mem_keys_foldl_updAssoc (fun x : α => x) (fun _ => (· + 1)) (fun _ => 1) l [] k

/-- Occurrence count of `k` in `l` (the value stored by `Counter`). -/
def countOcc (k : α) (l : List α) : ℕ :=
  (l.filter (fun x => decide (x = k))).length

theorem countOcc_eq_zero {k : α} {l : List α} (h : k ∉ l) : countOcc k l = 0 := by
  rw [countOcc]
  have : l.filter (fun x => decide (x = k)) = [] := by
    rw [List.filter_eq_nil_iff]
    intro a ha
    simp only [decide_eq_true_eq]
    rintro rfl
    exact h ha
  rw [this]
  rfl

omit [DecidableEq α] in
theorem countStep_some (t : List α) (n : ℕ) :
    t.foldl (fun (ob : Option ℕ) m => stepOpt (fun _ => (· + 1)) (fun _ => (1 : ℕ)) m ob)
        (some n) = some (n + t.length) := by
  induction t generalizing n with
  | nil => simp
  | cons m t ih =>
    rw [List.foldl_cons]
    have h1 : stepOpt (fun _ => (· + 1)) (fun _ => (1 : ℕ)) m (some n) = some (n + 1) := rfl
    rw [h1, ih]
    simp only [List.length_cons, Option.some.injEq]
    omega

theorem lookupA_firstSeenCounts (k : α) (l : List α) :
    lookupA k (firstSeenCounts l) = if k ∈ l then some (countOcc k l) else none := by
  have hfold := lookupA_foldl_updAssoc (fun x : α => x) (fun _ => (· + 1)) (fun _ => 1) l [] k
  rw [firstSeenCounts, hfold, lookupA_nil]
  rcases hfe : l.filter (fun x => decide (x = k)) with _ | ⟨m, t⟩
  · have : k ∉ l := by
      intro hk
      have : k ∈ l.filter (fun x => decide (x = k)) := List.mem_filter.mpr ⟨hk, by simp⟩
      simp [hfe] at this
    simp [this, stepOpt]
  · have hk : k ∈ l := by
      have hm : m ∈ l.filter (fun x => decide (x = k)) := by simp [hfe]
      have := List.mem_filter.mp hm
      rcases this with ⟨hml, hmk⟩
      simp only [decide_eq_true_eq] at hmk
      exact hmk ▸ hml
    rw [if_pos hk, countOcc, hfe, List.foldl_cons]
    have h0 : stepOpt (fun _ => (· + 1)) (fun _ => (1 : ℕ)) m none = some 1 := rfl
    rw [h0, countStep_some]
    simp [Nat.add_comm]

theorem mem_firstSeenCounts {k : α} {n : ℕ} {l : List α}
    (h : (k, n) ∈ firstSeenCounts l) : k ∈ l ∧ n = countOcc k l := by
  have hl := lookupA_of_mem h (nodupKeys_firstSeenCounts l)
  rw [lookupA_firstSeenCounts] at hl
  by_cases hk : k ∈ l
  · rw [if_pos hk] at hl
    exact ⟨hk, (Option.some.injEq .. ▸ hl).symm⟩
  · simp [hk] at hl

theorem valuesSum_updAssoc_bump (x : α) (acc : List (α × ℕ)) :
    ((updAssoc x (· + 1) 1 acc).map Prod.snd).sum = ((acc.map Prod.snd).sum) + 1 := by
  induction acc with
  | nil => simp [updAssoc]
  | cons p t ih =>
    obtain ⟨a, b⟩ := p
    by_cases h : a = x <;> simp [updAssoc, h, ih] <;> omega

theorem valuesSum_firstSeenCounts (l : List α) :
    ((firstSeenCounts l).map Prod.snd).sum = l.length := by
  suffices h : ∀ (l : List α) (acc : List (α × ℕ)),
      ((l.foldl (fun acc x => updAssoc x (· + 1) 1 acc) acc).map Prod.snd).sum =
        (acc.map Prod.snd).sum + l.length by
    simpa using h l []
  intro l
  induction l with
  | nil => simp
  | cons x t ih =>
    intro acc
    rw [List.foldl_cons, ih, valuesSum_updAssoc_bump]
    simp only [List.length_cons]
    omega

end Counter

namespace Freq

/-- Constant `CORE_LEXICON_THRESHOLD = 0.5` from `config.py`. -/
def CORE_LEXICON_THRESHOLD : ℚ := 1 / 2

/-- One row of the `freq_dict` list built by `FrequencyAnalyzer.analyze`. -/
structure FreqEntry where
  word : List Char
  frequency : ℕ
  rank : ℕ
  relative_freq : ℚ
  cumulative_freq : ℕ
deriving DecidableEq, Repr

/-- The `freq_dict` building loop of `FrequencyAnalyzer.analyze`: rank
counter starting at 1, running cumulative total starting at 0. -/
def buildFreqDict (M : ℕ) : List (List Char × ℕ) → ℕ → ℕ → List FreqEntry
  | [], _, _ => []
  | (w, f) :: t, rank, cum =>
    ⟨w, f, rank, (f : ℚ) / M * 100, cum + f⟩ :: buildFreqDict M t (rank + 1) (cum + f)

/-- Result record of `FrequencyAnalyzer.analyze`. -/
structure FreqResults where
  M : ℕ
  N : ℕ
  K_R : ℚ
  K_I : ℚ
  core_lexicon_size : ℕ
  freq_dict : List FreqEntry
deriving Repr

/-- Predicate of the core-lexicon scan: `cumulative_freq >= M * 0.5`. -/
def coreHit (M : ℕ) (e : FreqEntry) : Bool :=
  decide ((M : ℚ) * CORE_LEXICON_THRESHOLD ≤ (e.cumulative_freq : ℚ))

/-- Shallow embedding of `FrequencyAnalyzer.analyze` (`frequency.py`).
`Counter.most_common()` is a stable descending sort of the counter's
entries by count. -/
def analyze (lemma_lists : List (List (List Char))) : FreqResults :=
  let all_lemmas := lemma_lists.flatten
  let freq_counter := firstSeenCounts all_lemmas
  let sorted_lemmas := List.insertionSort (keyGE Prod.snd) freq_counter
  let M := all_lemmas.length
  let N := freq_counter.length
  let K_R : ℚ := if 0 < M then ((N : ℚ) / M) * 100 else 0
  let K_I : ℚ := if 0 < N then (M : ℚ) / N else 0
  let freq_dict := buildFreqDict M sorted_lemmas 1 0
  let core_size :=
    match freq_dict.find? (coreHit M) with
    | some e => e.rank
    | none => 0
  ⟨M, N, K_R, K_I, core_size, freq_dict⟩

theorem rank_le_of_mem_buildFreqDict (M : ℕ) :
    ∀ (l : List (List Char × ℕ)) (rk cum : ℕ) (e : FreqEntry),
      e ∈ buildFreqDict M l rk cum → rk ≤ e.rank := by
  intro l
  induction l with
  | nil => intro rk cum e he; simp [buildFreqDict] at he
  | cons p t ih =>
    intro rk cum e he
    obtain ⟨w, f⟩ := p
    rcases List.mem_cons.mp he with rfl | htl
    · simp
    · exact le_trans (Nat.le_succ rk) (ih (rk + 1) (cum + f) e htl)

theorem find?_buildFreqDict_least (M : ℕ) (p : FreqEntry → Bool) :
    ∀ (l : List (List Char × ℕ)) (rk cum : ℕ) (e : FreqEntry),
      (buildFreqDict M l rk cum).find? p = some e →
        p e = true ∧ e ∈ buildFreqDict M l rk cum ∧
          ∀ e' ∈ buildFreqDict M l rk cum, p e' = true → e.rank ≤ e'.rank := by
  intro l
  induction l with
  | nil => intro rk cum e he; simp [buildFreqDict] at he
  | cons q t ih =>
    intro rk cum e he
    obtain ⟨w, f⟩ := q
    rw [buildFreqDict] at he ⊢
    by_cases hp : p ⟨w, f, rk, (f : ℚ) / M * 100, cum + f⟩ = true
    · rw [List.find?_cons_of_pos _ hp] at he
      injection he with he
      subst he
      refine ⟨hp, List.mem_cons_self .., ?_⟩
      intro e' he' _
      rcases List.mem_cons.mp he' with rfl | htl
      · exact le_refl _
      · exact le_trans (Nat.le_succ rk) (rank_le_of_mem_buildFreqDict M t (rk + 1) (cum + f) e' htl)
    · rw [List.find?_cons_of_neg _ hp] at he
      obtain ⟨hpe, hmem, hmin⟩ := ih (rk + 1) (cum + f) e he
      refine ⟨hpe, List.mem_cons_of_mem _ hmem, ?_⟩
      intro e' he' hpe'
      rcases List.mem_cons.mp he' with rfl | htl
      · exact absurd hpe' hp
      · exact hmin e' htl hpe'

theorem cumulative_chain_buildFreqDict (M : ℕ) :
    ∀ (l : List (List Char × ℕ)) (rk cum : ℕ),
      List.Chain' (· ≤ ·) ((buildFreqDict M l rk cum).map (·.cumulative_freq)) := by
  intro l
  induction l with
  | nil => intro rk cum; simp [buildFreqDict]
  | cons q t ih =>
    intro rk cum
    obtain ⟨w, f⟩ := q
    rw [buildFreqDict, List.map_cons]
    cases t with
    | nil => simp [buildFreqDict]
    | cons q' t' =>
      obtain ⟨w', f'⟩ := q'
      have htail := ih (rk + 1) (cum + f)
      rw [buildFreqDict, List.map_cons] at htail ⊢
      rw [List.chain'_cons]
      refine ⟨?_, htail⟩
      show cum + f ≤ cum + f + f'
      omega

theorem getLast_cumulative_buildFreqDict (M : ℕ) :
    ∀ (l : List (List Char × ℕ)) (rk cum : ℕ), l ≠ [] →
      ((buildFreqDict M l rk cum).map (·.cumulative_freq)).getLast? =
        some (cum + (l.map Prod.snd).sum) := by
  intro l
  induction l with
  | nil => intro rk cum h; exact absurd rfl h
  | cons q t ih =>
    intro rk cum _
    obtain ⟨w, f⟩ := q
    cases t with
    | nil => simp [buildFreqDict]
    | cons q' t' =>
      obtain ⟨w', f'⟩ := q'
      have htail := ih (rk + 1) (cum + f) (by simp)
      rw [buildFreqDict, List.map_cons] at htail
      rw [buildFreqDict, List.map_cons, buildFreqDict, List.map_cons]
      rw [List.getLast?_cons_cons]
      rw [htail]
      simp only [List.map_cons, List.sum_cons, Option.some.injEq]
      omega

theorem exists_mem_buildFreqDict_last (M : ℕ) :
    ∀ (l : List (List Char × ℕ)) (rk cum : ℕ), l ≠ [] →
      ∃ e ∈ buildFreqDict M l rk cum, e.cumulative_freq = cum + (l.map Prod.snd).sum := by
  intro l
  induction l with
  | nil => intro rk cum h; exact absurd rfl h
  | cons q t ih =>
    intro rk cum _
    obtain ⟨w, f⟩ := q
    rcases ht : t with _ | ⟨q', t'⟩
    · exact ⟨_, List.mem_cons_self .., by simp [buildFreqDict]⟩
    · rw [← ht]
      obtain ⟨e, he, hce⟩ := ih (rk + 1) (cum + f) (by simp [ht])
      refine ⟨e, List.mem_cons_of_mem _ he, ?_⟩
      rw [hce]
      simp only [List.map_cons, List.sum_cons]
      omega

theorem relativeSum_buildFreqDict (M : ℕ) :
    ∀ (l : List (List Char × ℕ)) (rk cum : ℕ),
      ((buildFreqDict M l rk cum).map (·.relative_freq)).sum =
        (((l.map Prod.snd).sum : ℕ) : ℚ) / M * 100 := by
  intro l
  induction l with
  | nil => intro rk cum; simp [buildFreqDict]
  | cons q t ih =>
    intro rk cum
    obtain ⟨w, f⟩ := q
    rw [buildFreqDict, List.map_cons, List.sum_cons, ih (rk + 1) (cum + f)]
    simp only [List.map_cons, List.sum_cons]
    push_cast
    ring

theorem analyze_M (L : List (List (List Char))) :
    (analyze L).M = L.flatten.length := rfl

theorem analyze_freq_dict (L : List (List (List Char))) :
    (analyze L).freq_dict =
      buildFreqDict L.flatten.length
        (List.insertionSort (keyGE Prod.snd) (firstSeenCounts L.flatten)) 1 0 := rfl

theorem analyze_core_eq_match (L : List (List (List Char))) :
    (analyze L).core_lexicon_size =
      (match ((analyze L).freq_dict).find? (coreHit (analyze L).M) with
        | some e => e.rank
        | none => 0) := rfl

theorem sum_counts_sorted (A : List (List Char)) :
    (((List.insertionSort (keyGE Prod.snd) (firstSeenCounts A)).map Prod.snd).sum) =
      A.length := by
  have hperm := (List.perm_insertionSort (keyGE Prod.snd) (firstSeenCounts A)).map Prod.snd
  rw [hperm.sum_eq, valuesSum_firstSeenCounts]

theorem sorted_counts_ne_nil {A : List (List Char)} (h : A ≠ []) :
    List.insertionSort (keyGE Prod.snd) (firstSeenCounts A) ≠ [] := by
  intro hnil
  have hs := sum_counts_sorted A
  rw [hnil] at hs
  simp at hs
  exact h (List.length_eq_zero.mp hs.symm)

end Freq

/-- C3: `FrequencyAnalyzer.analyze` returns `core_lexicon_size` equal to the
smallest rank whose cumulative frequency reaches `M * 0.5` (`M` the total
token count), `0` when the corpus is empty; and every 10-token corpus whose
top-ranked lemma occurs 5 times yields `core_lexicon_size = 1`. -/
theorem C3_core_lexicon_size (L : List (List (List Char))) :
    (L.flatten = [] → (Freq.analyze L).core_lexicon_size = 0) ∧
    (L.flatten ≠ [] →
      IsLeast {rk | ∃ e ∈ (Freq.analyze L).freq_dict, e.rank = rk ∧
          ((Freq.analyze L).M : ℚ) * Freq.CORE_LEXICON_THRESHOLD ≤ (e.cumulative_freq : ℚ)}
        (Freq.analyze L).core_lexicon_size) ∧
    ((Freq.analyze L).M = 10 →
      (∃ e ∈ (Freq.analyze L).freq_dict, e.rank = 1 ∧ e.frequency = 5) →
      (Freq.analyze L).core_lexicon_size = 1) := by
  refine ⟨?empty, ?least, ?ten⟩
  case empty =>
    intro h
    rw [Freq.analyze_core_eq_match, Freq.analyze_freq_dict, h]
    rfl
  case least =>
    intro h
    have hM : 0 < L.flatten.length := List.length_pos.mpr h
    have hne := Freq.sorted_counts_ne_nil h
    obtain ⟨elast, hlast_mem, hlast_cum⟩ :=
      Freq.exists_mem_buildFreqDict_last L.flatten.length
        (List.insertionSort (keyGE Prod.snd) (firstSeenCounts L.flatten)) 1 0 hne
    have hlast_hit : Freq.coreHit L.flatten.length elast = true := by
      apply decide_eq_true
      rw [hlast_cum, Freq.sum_counts_sorted, Freq.CORE_LEXICON_THRESHOLD]
      have : (0 : ℚ) ≤ (L.flatten.length : ℚ) := Nat.cast_nonneg _
      push_cast
      linarith
    obtain ⟨e0, hf⟩ : ∃ e, ((Freq.analyze L).freq_dict).find? (Freq.coreHit (Freq.analyze L).M) = some e := by
      rcases hfd : ((Freq.analyze L).freq_dict).find? (Freq.coreHit (Freq.analyze L).M) with _ | e
      · exfalso
        have hall := List.find?_eq_none.mp hfd elast (by rw [Freq.analyze_freq_dict]; exact hlast_mem)
        rw [Freq.analyze_M] at hall
        exact hall hlast_hit
      · exact ⟨e, rfl⟩
    have hcore : (Freq.analyze L).core_lexicon_size = e0.rank := by
      rw [Freq.analyze_core_eq_match, hf]
    obtain ⟨hp0, hmem0, hmin0⟩ :=
      Freq.find?_buildFreqDict_least L.flatten.length (Freq.coreHit L.flatten.length) _ 1 0 e0
        (by rw [Freq.analyze_freq_dict, Freq.analyze_M] at hf; exact hf)
    constructor
    · refine ⟨e0, ?_, hcore.symm, ?_⟩
      · rw [Freq.analyze_freq_dict]; exact hmem0
      · rw [Freq.analyze_M]
        exact of_decide_eq_true hp0
    · rintro rk ⟨e', he', hrk, hcum⟩
      rw [hcore, ← hrk]
      refine hmin0 e' ?_ ?_
      · rw [Freq.analyze_freq_dict] at he'; exact he'
      · apply decide_eq_true
        rw [Freq.analyze_M] at hcum
        exact hcum
  case ten =>
    intro hM hex
    obtain ⟨e, he, hrank, hfreq⟩ := hex
    rw [Freq.analyze_M] at hM
    rw [Freq.analyze_freq_dict, hM] at he
    rcases hs : List.insertionSort (keyGE Prod.snd) (firstSeenCounts L.flatten) with _ | ⟨⟨w, f⟩, t⟩
    · rw [hs] at he
      simp [Freq.buildFreqDict] at he
    · rw [hs, Freq.buildFreqDict] at he
      rcases List.mem_cons.mp he with rfl | htl
      · simp only at hfreq
        subst hfreq
        have hhit : Freq.coreHit 10
            ⟨w, 5, 1, ((5 : ℕ) : ℚ) / ((10 : ℕ) : ℚ) * 100, 0 + 5⟩ = true :=
          decide_eq_true (by rw [Freq.CORE_LEXICON_THRESHOLD]; push_cast; norm_num)
        have hfind : ((Freq.analyze L).freq_dict).find? (Freq.coreHit (Freq.analyze L).M) =
            some ⟨w, 5, 1, ((5 : ℕ) : ℚ) / ((10 : ℕ) : ℚ) * 100, 0 + 5⟩ := by
          rw [Freq.analyze_freq_dict, Freq.analyze_M, hM, hs, Freq.buildFreqDict]
          exact List.find?_cons_of_pos _ hhit
        rw [Freq.analyze_core_eq_match, hfind]
      · exfalso
        have := Freq.rank_le_of_mem_buildFreqDict 10 t 2 (0 + f) e htl
        omega

/-- Witness for C3 at a concrete 10-token corpus whose top lemma occurs 5
times. -/
theorem C3_core_lexicon_size_witness :
    (Freq.analyze [[['a'], ['a'], ['a'], ['a'], ['a'], ['b'], ['b'], ['c'], ['c'], ['d']]]).M = 10 ∧
    (∃ e ∈ (Freq.analyze [[['a'], ['a'], ['a'], ['a'], ['a'], ['b'], ['b'], ['c'], ['c'], ['d']]]).freq_dict,
      e.rank = 1 ∧ e.frequency = 5) ∧
    (Freq.analyze [[['a'], ['a'], ['a'], ['a'], ['a'], ['b'], ['b'], ['c'], ['c'], ['d']]]).core_lexicon_size = 1 :=
  ⟨by decide, by decide,
    (C3_core_lexicon_size [[['a'], ['a'], ['a'], ['a'], ['a'], ['b'], ['b'], ['c'], ['c'], ['d']]]).2.2
      (by decide) (by decide)⟩

/-- C8: for non-empty corpora the relative frequencies sum to exactly 100
(in exact rational arithmetic), and the cumulative frequencies are
non-decreasing in rank with last value `M`. -/
theorem C8_relative_sum_cumulative (L : List (List (List Char))) (h : L.flatten ≠ []) :
    (((Freq.analyze L).freq_dict.map (·.relative_freq)).sum = 100) ∧
    List.Chain' (· ≤ ·) ((Freq.analyze L).freq_dict.map (·.cumulative_freq)) ∧
    ((Freq.analyze L).freq_dict.map (·.cumulative_freq)).getLast? =
      some (Freq.analyze L).M := by
  have hM : 0 < L.flatten.length := List.length_pos.mpr h
  have hne := Freq.sorted_counts_ne_nil h
  refine ⟨?_, ?_, ?_⟩
  · rw [Freq.analyze_freq_dict, Freq.relativeSum_buildFreqDict, Freq.sum_counts_sorted]
    rw [div_self (by exact_mod_cast Nat.pos_iff_ne_zero.mp hM)]
    norm_num
  · rw [Freq.analyze_freq_dict]
    exact Freq.cumulative_chain_buildFreqDict _ _ _ _
  · rw [Freq.analyze_freq_dict, Freq.analyze_M,
      Freq.getLast_cumulative_buildFreqDict _ _ 1 0 hne, Freq.sum_counts_sorted]
    simp

/-- Witness for C8 at a concrete non-empty corpus. -/
theorem C8_relative_sum_cumulative_witness :
    ([[['a'], ['a'], ['b']]] : List (List (List Char))).flatten ≠ [] ∧
    ((((Freq.analyze [[['a'], ['a'], ['b']]]).freq_dict.map (·.relative_freq)).sum = 100) ∧
      List.Chain' (· ≤ ·) ((Freq.analyze [[['a'], ['a'], ['b']]]).freq_dict.map (·.cumulative_freq)) ∧
      ((Freq.analyze [[['a'], ['a'], ['b']]]).freq_dict.map (·.cumulative_freq)).getLast? =
        some (Freq.analyze [[['a'], ['a'], ['b']]]).M) :=
  ⟨by decide, C8_relative_sum_cumulative [[['a'], ['a'], ['b']]] (by decide)⟩

namespace TermIndex

/-- Constant `DOMAIN_BOOST = 2.0` from `config.py`. -/
def DOMAIN_BOOST : ℚ := 2

/-- Constant `MIN_TERM_FREQUENCY = 3` from `config.py`. -/
def MIN_TERM_FREQUENCY : ℕ := 3

/-- Constant `TOP_WORDS_LIMIT = 1000` from `config.py`. -/
def TOP_WORDS_LIMIT : ℕ := 1000

/-- One formatted term candidate (`{'term', 'tfidf_score', 'in_domain'}`). -/
structure TermRec where
  term : List Char
  tfidf_score : ℚ
  in_domain : Bool
deriving DecidableEq, Repr

/-- Document frequency: number of documents whose token list contains the
word (the `df` dictionary of `extract_terms`, built with set semantics). -/
def dfOf (doc_words : List (List (List Char))) (w : List Char) : ℕ :=
  (doc_words.filter (fun ws => decide (w ∈ ws))).length

/-- The score computed for one `(word, freq)` counter item inside the
per-document loop of `extract_terms` / `extract_ngrams`:
`tf = freq / len(words) if words else 0`,
`idf = log(num_docs / df[word]) + 1 if df[word] > 0 else 0`,
`tfidf = tf * idf`, doubled via `DOMAIN_BOOST` for domain terms.
`logFn` models the opaque `math.log`. -/
def docScore (logFn : ℚ → ℚ) (domain : List Char → Bool) (numDocs : ℕ)
    (df : List Char → ℕ) (ws : List (List Char)) (w : List Char) (freq : ℕ) : ℚ :=
  let tf : ℚ := if ws.length = 0 then 0 else (freq : ℚ) / (ws.length : ℚ)
  let idf : ℚ := if 0 < df w then logFn ((numDocs : ℚ) / (df w : ℚ)) + 1 else 0
  let tfidf := tf * idf
  if domain w then tfidf * DOMAIN_BOOST else tfidf

/-- The dict update
`if word not in term_scores or tfidf > term_scores[word]: term_scores[word] = tfidf`. -/
def updateMax (k : List Char) (v : ℚ) : List (List Char × ℚ) → List (List Char × ℚ) :=
  updAssoc k (fun u => if u < v then v else u) v

/-- The `(word, score)` items produced by one document's counter loop in
`extract_terms` (words failing the part-of-speech filter `valid` are
skipped). -/
def docPairsTerms (logFn : ℚ → ℚ) (valid domain : List Char → Bool) (numDocs : ℕ)
    (df : List Char → ℕ) (ws : List (List Char)) : List (List Char × ℚ) :=
  ((firstSeenCounts ws).filter (fun p => valid p.1)).map
    (fun p => (p.1, docScore logFn domain numDocs df ws p.1 p.2))

/-- Shallow embedding of `TermIndexBuilder.extract_terms`.  The external
part-of-speech predicate `is_valid_term` (pymorphy3) is the parameter
`valid`; the loaded `domain_terms` set is the predicate `domain`. -/
def extract_terms (logFn : ℚ → ℚ) (valid domain : List Char → Bool)
    (texts : List (List Char)) : List TermRec :=
  let doc_words := texts.map tokenizeTerms
  let numDocs := texts.length
  let df := dfOf doc_words
  let term_scores := doc_words.foldl
    (fun acc ws => (docPairsTerms logFn valid domain numDocs df ws).foldl
      (fun a q => updateMax q.1 q.2 a) acc) []
  let sorted_terms := List.insertionSort (keyGE Prod.snd) term_scores
  (sorted_terms.filter (fun p => decide (0 < p.2))).map
    (fun p => ⟨p.1, p.2, domain p.1⟩)

/-- The `(ngram, score)` items produced by one document's counter loop in
`extract_ngrams` (n-grams with per-document count below
`MIN_TERM_FREQUENCY` are skipped). -/
def docPairsNgrams (logFn : ℚ → ℚ) (domain : List Char → Bool) (numDocs : ℕ)
    (df : List Char → ℕ) (gs : List (List Char)) : List (List Char × ℚ) :=
  ((firstSeenCounts gs).filter (fun p => decide (MIN_TERM_FREQUENCY ≤ p.2))).map
    (fun p => (p.1, docScore logFn domain numDocs df gs p.1 p.2))

/-- Shallow embedding of `TermIndexBuilder.extract_ngrams`. -/
def extract_ngrams (logFn : ℚ → ℚ) (domain : List Char → Bool)
    (texts : List (List Char)) (n : ℕ) : List TermRec :=
  let doc_ngrams := texts.map (fun t => ngramsOf n (tokenizeNgramWords t))
  let numDocs := texts.length
  let df := dfOf doc_ngrams
  let ngram_scores := doc_ngrams.foldl
    (fun acc gs => (docPairsNgrams logFn domain numDocs df gs).foldl
      (fun a q => updateMax q.1 q.2 a) acc) []
  let sorted_ngrams := List.insertionSort (keyGE Prod.snd) ngram_scores
  (sorted_ngrams.filter (fun p => decide (0 < p.2))).map
    (fun p => ⟨p.1, p.2, domain p.1⟩)

end TermIndex

/-- Accumulator characterization of the strict-improvement max fold. -/
def maxListQ (l : List ℚ) : Option ℚ :=
  l.foldl (fun ob v => some (ob.elim v (fun u => if u < v then v else u))) none

theorem maxListQ_foldl_some (l : List ℚ) (m : ℚ) :
    ∃ v, l.foldl (fun ob v => some (ob.elim v (fun u => if u < v then v else u))) (some m) =
        some v ∧ (v = m ∨ v ∈ l) ∧ m ≤ v ∧ ∀ x ∈ l, x ≤ v := by
  induction l generalizing m with
  | nil => exact ⟨m, rfl, Or.inl rfl, le_refl m, by simp⟩
  | cons x t ih =>
    have hstep : (some ((some m).elim x fun u => if u < x then x else u) : Option ℚ) =
        some (if m < x then x else m) := rfl
    obtain ⟨v, hv, hmem, hle, hall⟩ := ih (if m < x then x else m)
    refine ⟨v, by rw [List.foldl_cons]; rw [hstep]; exact hv, ?_, ?_, ?_⟩
    · rcases hmem with hvm | hvt
      · by_cases hmx : m < x
        · rw [if_pos hmx] at hvm
          exact Or.inr (hvm ▸ List.mem_cons_self ..)
        · rw [if_neg hmx] at hvm
          exact Or.inl hvm
      · exact Or.inr (List.mem_cons_of_mem _ hvt)
    · refine le_trans ?_ hle
      by_cases hmx : m < x
      · rw [if_pos hmx]
        exact le_of_lt hmx
      · rw [if_neg hmx]
    · intro y hy
      rcases List.mem_cons.mp hy with hyx | hyt
      · rw [hyx]
        refine le_trans ?_ hle
        by_cases hmx : m < x
        · rw [if_pos hmx]
        · rw [if_neg hmx]
          exact le_of_not_lt hmx
      · exact hall y hyt

theorem maxListQ_some {l : List ℚ} {v : ℚ} (h : maxListQ l = some v) :
    v ∈ l ∧ ∀ x ∈ l, x ≤ v := by
  cases l with
  | nil => simp [maxListQ] at h
  | cons x t =>
    rw [maxListQ, List.foldl_cons] at h
    have hstep : (some (none.elim x fun u => if u < x then x else u) : Option ℚ) =
        some x := rfl
    rw [hstep] at h
    obtain ⟨v', hv', hmem, hle, hall⟩ := maxListQ_foldl_some t x
    rw [hv'] at h
    injection h with h
    subst h
    refine ⟨?_, ?_⟩
    · rcases hmem with rfl | hvt
      · exact List.mem_cons_self ..
      · exact List.mem_cons_of_mem _ hvt
    · intro y hy
      rcases List.mem_cons.mp hy with rfl | hyt
      · exact hle
      · exact hall y hyt

theorem le_foldr_max {l : List ℚ} {x : ℚ} (hx : x ∈ l) : x ≤ l.foldr max 0 := by
  induction l with
  | nil => simp at hx
  | cons y t ih =>
    rw [List.foldr_cons]
    rcases List.mem_cons.mp hx with rfl | hxt
    · exact le_max_left _ _
    · exact le_trans (ih hxt) (le_max_right _ _)

theorem foldr_max_eq_zero_or_mem (l : List ℚ) :
    l.foldr max 0 = 0 ∨ l.foldr max 0 ∈ l := by
  induction l with
  | nil => exact Or.inl rfl
  | cons y t ih =>
    rw [List.foldr_cons]
    rcases le_total y (t.foldr max 0) with h | h
    · rw [max_eq_right h]
      rcases ih with h0 | hm
      · exact Or.inl h0
      · exact Or.inr (List.mem_cons_of_mem _ hm)
    · rw [max_eq_left h]
      exact Or.inr (List.mem_cons_self ..)

theorem foldl_foldl_flatten {γ β δ : Type*} (step : γ → β → γ) (g : δ → List β)
    (docs : List δ) (init : γ) :
    docs.foldl (fun acc d => (g d).foldl step acc) init =
      ((docs.map g).flatten).foldl step init := by
  induction docs generalizing init with
  | nil => rfl
  | cons d t ih => simp [List.foldl_append, ih]

theorem filter_map_flatten {β γ : Type*} (p : β → Bool) (g : β → γ) (L : List (List β)) :
    (L.flatten.filter p).map g = (L.map (fun l => (l.filter p).map g)).flatten := by
  induction L with
  | nil => rfl
  | cons l t ih =>
    rw [List.map_cons, List.flatten_cons, List.flatten_cons, List.filter_append,
      List.map_append, ih]

section FilterKey

variable {α : Type*} [DecidableEq α] {β : Type*}

theorem filter_key_eq_nil {l : List (α × β)} {k : α} (h : k ∉ l.map Prod.fst) :
    l.filter (fun p => decide (p.1 = k)) = [] := by
  induction l with
  | nil => rfl
  | cons p t ih =>
    obtain ⟨a, b⟩ := p
    have h1 : a ≠ k := by
      rintro rfl
      exact h (by simp)
    rw [List.filter_cons, if_neg (by simpa using h1)]
    exact ih (fun hk => h (by simp [hk]))

theorem filter_key_of_nodupKeys {l : List (α × β)} (h : (l.map Prod.fst).Nodup)
    {k : α} {b : β} (hm : (k, b) ∈ l) :
    l.filter (fun p => decide (p.1 = k)) = [(k, b)] := by
  induction l with
  | nil => simp at hm
  | cons p t ih =>
    obtain ⟨a, b'⟩ := p
    have hnd : a ∉ t.map Prod.fst ∧ (t.map Prod.fst).Nodup := by simpa using h
    rcases List.mem_cons.mp hm with heq | htl
    · injection heq with h1 h2
      subst h1; subst h2
      rw [List.filter_cons, if_pos (by simp)]
      rw [filter_key_eq_nil hnd.1]
    · have h1 : a ≠ k := by
        rintro rfl
        exact hnd.1 (by simpa using List.mem_map_of_mem Prod.fst htl)
      rw [List.filter_cons, if_neg (by simpa using h1)]
      exact ih hnd.2 htl

theorem filter_key_firstSeenCounts (k : α) (ws : List α) :
    (firstSeenCounts ws).filter (fun p => decide (p.1 = k)) =
      if k ∈ ws then [(k, countOcc k ws)] else [] := by
  by_cases hk : k ∈ ws
  · rw [if_pos hk]
    refine filter_key_of_nodupKeys (nodupKeys_firstSeenCounts ws) (mem_of_lookupA ?_)
    rw [lookupA_firstSeenCounts, if_pos hk]
  · rw [if_neg hk]
    exact filter_key_eq_nil (fun hm => hk ((mem_keys_firstSeenCounts ws k).mp hm))

theorem filter_key_filter_map {l : List (α × ℕ)} (keep : α × ℕ → Bool)
    (score : α → ℕ → ℚ) (k : α) :
    (((l.filter keep).map (fun p => (p.1, score p.1 p.2))).filter
        (fun q => decide (q.1 = k))) =
      ((l.filter (fun p => decide (p.1 = k))).filter keep).map
        (fun p => (p.1, score p.1 p.2)) := by
  rw [List.filter_map, List.filter_comm]
  rfl

end FilterKey

namespace TermIndex

theorem updateMax_eq (k : List Char) (v : ℚ) (acc : List (List Char × ℚ)) :
    updateMax k v acc = updAssoc k (fun u => if u < v then v else u) v acc := rfl

theorem contribs_docPairsTerms (logFn : ℚ → ℚ) (valid domain : List Char → Bool)
    (numDocs : ℕ) (df : List Char → ℕ) (ws : List (List Char)) (k : List Char) :
    (((docPairsTerms logFn valid domain numDocs df ws).filter
        (fun q => decide (q.1 = k))).map Prod.snd) =
      if valid k = true ∧ k ∈ ws then
        [docScore logFn domain numDocs df ws k (countOcc k ws)]
      else [] := by
  rw [docPairsTerms, filter_key_filter_map, filter_key_firstSeenCounts]
  by_cases hk : k ∈ ws
  · rw [if_pos hk]
    by_cases hv : valid k = true
    · rw [if_pos ⟨hv, hk⟩]
      simp [List.filter_cons, hv]
    · rw [if_neg (fun hc => hv hc.1)]
      simp [List.filter_cons, hv]
  · rw [if_neg hk, if_neg (fun hc => hk hc.2)]
    rfl

/-- The claim's per-document unigram score for word `w` in document
`ws`: `tf * idf` with `tf = count(w)/len(ws)` and
`idf = log(numDocs/df[w]) + 1`, document frequency and document count taken
over `texts`, with no domain boost. -/
def claimUnigramTfIdf (logFn : ℚ → ℚ) (texts : List (List Char))
    (w : List Char) (ws : List (List Char)) : ℚ :=
  (if ws.length = 0 then 0 else ((countOcc w ws : ℕ) : ℚ) / (ws.length : ℚ)) *
    (if 0 < dfOf (texts.map tokenizeTerms) w then
        logFn ((texts.length : ℚ) / (dfOf (texts.map tokenizeTerms) w : ℚ)) + 1
      else 0)

theorem docScore_eq_boost_mul (logFn : ℚ → ℚ) (domain : List Char → Bool)
    (texts : List (List Char)) (ws : List (List Char)) (k : List Char) :
    docScore logFn domain texts.length (dfOf (texts.map tokenizeTerms)) ws k (countOcc k ws) =
      (if domain k then DOMAIN_BOOST else 1) * claimUnigramTfIdf logFn texts k ws := by
  rw [docScore, claimUnigramTfIdf]
  by_cases hd : domain k = true
  · simp only [hd, if_true]
    ring
  · simp only [Bool.not_eq_true] at hd
    simp only [hd, Bool.false_eq_true, if_false]
    ring

theorem claimUnigramTfIdf_of_not_mem (logFn : ℚ → ℚ) (texts : List (List Char))
    (w : List Char) (ws : List (List Char)) (h : w ∉ ws) :
    claimUnigramTfIdf logFn texts w ws = 0 := by
  rw [claimUnigramTfIdf, countOcc_eq_zero h]
  by_cases hlen : ws.length = 0 <;> simp [hlen]

theorem stepOpt_max_eq_maxListQ (ms : List (List Char × ℚ)) :
    ms.foldl (fun ob m => stepOpt (fun q u => if u < q.2 then q.2 else u) Prod.snd m ob)
        none =
      maxListQ (ms.map Prod.snd) := by
  rw [maxListQ, List.foldl_map]
  rfl

theorem lookupA_term_scores (logFn : ℚ → ℚ) (valid domain : List Char → Bool)
    (texts : List (List Char)) (k : List Char) :
    lookupA k ((texts.map tokenizeTerms).foldl
        (fun acc ws => (docPairsTerms logFn valid domain texts.length
            (dfOf (texts.map tokenizeTerms)) ws).foldl
          (fun a q => updateMax q.1 q.2 a) acc) []) =
      maxListQ (((texts.map tokenizeTerms).map (fun ws =>
        if valid k = true ∧ k ∈ ws then
          [docScore logFn domain texts.length (dfOf (texts.map tokenizeTerms)) ws k
            (countOcc k ws)]
        else [])).flatten) := by
  rw [foldl_foldl_flatten]
  simp only [updateMax_eq]
  rw [lookupA_foldl_updAssoc Prod.fst (fun q u => if u < q.2 then q.2 else u) Prod.snd
    _ [] k, lookupA_nil, stepOpt_max_eq_maxListQ, filter_map_flatten, List.map_map]
  simp only [Function.comp_def, contribs_docPairsTerms]

end TermIndex

/-- C4 counterexample: the two tokenizers differ on the text `"ab cd"` —
`extract_terms` keeps only alphabetic runs of length ≥ 3 while
`extract_ngrams` keeps runs of any length. -/
theorem C4_tokenizers_counterexample :
    tokenizeTerms ['a', 'b', ' ', 'c', 'd'] ≠
      tokenizeNgramWords ['a', 'b', ' ', 'c', 'd'] := by decide

/-- C4 amended: the tokenizer of `extract_terms` is the tokenizer of
`extract_ngrams` restricted to words of length ≥ 3 (the n-gram tokenizer
`\b[а-яёa-z]+\b` has no minimum length, unlike `\b[а-яёa-z]{3,}\b`); the
two are not extensionally equal. -/
theorem C4_tokenizers_amended (text : List Char) :
    tokenizeTerms text =
      (tokenizeNgramWords text).filter (fun r => decide (3 ≤ r.length)) := by
  rw [tokenizeTerms, tokenizeNgramWords, List.filter_filter]
  exact List.filter_congr (fun r _ => by rw [Bool.and_comm])

/-- C1: every unigram candidate returned by `extract_terms` stores as
`tfidf_score` the MAXIMUM over all documents of that document's `tf*idf`
(tf = occurrences/doc token count, idf = log(numDocs/df)+1 under the opaque
`math.log` modelled by `logFn`), multiplied by `DOMAIN_BOOST = 2` exactly
when the word is in the domain-term set — not a sum or average. -/
theorem C1_unigram_score_is_max (logFn : ℚ → ℚ) (valid domain : List Char → Bool)
    (texts : List (List Char)) (rec : TermIndex.TermRec)
    (hrec : rec ∈ TermIndex.extract_terms logFn valid domain texts) :
    rec.tfidf_score =
      (if domain rec.term = true then TermIndex.DOMAIN_BOOST else 1) *
        ((texts.map (fun t =>
          TermIndex.claimUnigramTfIdf logFn texts rec.term (tokenizeTerms t))).foldr max 0) := by
  simp only [TermIndex.extract_terms] at hrec
  rw [List.mem_map] at hrec
  obtain ⟨p, hpmem, hrecp⟩ := hrec
  rw [List.mem_filter] at hpmem
  obtain ⟨hpsort, hpposb⟩ := hpmem
  have hpos : (0 : ℚ) < p.2 := of_decide_eq_true hpposb
  rw [List.mem_insertionSort] at hpsort
  have hlook := lookupA_of_mem hpsort (by
    rw [foldl_foldl_flatten]
    simp only [TermIndex.updateMax_eq]
    exact nodupKeys_foldl_updAssoc Prod.fst (fun q u => if u < q.2 then q.2 else u)
      Prod.snd _ [] (by simp))
  rw [TermIndex.lookupA_term_scores] at hlook
  obtain ⟨hvmem, hvmax⟩ := maxListQ_some hlook
  rw [List.mem_flatten] at hvmem
  obtain ⟨l, hl, hx⟩ := hvmem
  rw [List.mem_map] at hl
  obtain ⟨ws₀, hws₀, rfl⟩ := hl
  rw [List.mem_map] at hws₀
  obtain ⟨t₀, ht₀, rfl⟩ := hws₀
  by_cases hc : valid p.1 = true ∧ p.1 ∈ tokenizeTerms t₀
  case neg =>
    rw [if_neg hc] at hx
    simp at hx
  case pos =>
    rw [if_pos hc] at hx
    have hveq : p.2 = TermIndex.docScore logFn domain texts.length
        (TermIndex.dfOf (texts.map tokenizeTerms)) (tokenizeTerms t₀) p.1
        (countOcc p.1 (tokenizeTerms t₀)) :=
      List.mem_singleton.mp hx
    obtain ⟨hvalid, hkin⟩ := hc
    subst hrecp
    dsimp only
    have hB : (0 : ℚ) < if domain p.1 = true then TermIndex.DOMAIN_BOOST else 1 := by
      by_cases hd : domain p.1 = true <;>
        simp [hd, TermIndex.DOMAIN_BOOST]
    apply le_antisymm
    · rw [hveq, TermIndex.docScore_eq_boost_mul]
      apply mul_le_mul_of_nonneg_left _ (le_of_lt hB)
      apply le_foldr_max
      exact List.mem_map_of_mem
        (fun t => TermIndex.claimUnigramTfIdf logFn texts p.1 (tokenizeTerms t)) ht₀
    · rcases foldr_max_eq_zero_or_mem
          (texts.map (fun t =>
            TermIndex.claimUnigramTfIdf logFn texts p.1 (tokenizeTerms t))) with hF0 | hFm
      · rw [hF0, mul_zero]
        exact le_of_lt hpos
      · rw [List.mem_map] at hFm
        obtain ⟨t₁, ht₁, hFeq⟩ := hFm
        by_cases hk1 : p.1 ∈ tokenizeTerms t₁
        · have hsc : TermIndex.docScore logFn domain texts.length
              (TermIndex.dfOf (texts.map tokenizeTerms)) (tokenizeTerms t₁) p.1
                (countOcc p.1 (tokenizeTerms t₁)) ∈
              (((texts.map tokenizeTerms).map (fun ws =>
                if valid p.1 = true ∧ p.1 ∈ ws then
                  [TermIndex.docScore logFn domain texts.length
                    (TermIndex.dfOf (texts.map tokenizeTerms)) ws p.1 (countOcc p.1 ws)]
                else [])).flatten) := by
            rw [List.mem_flatten]
            refine ⟨_, List.mem_map_of_mem _ (List.mem_map_of_mem tokenizeTerms ht₁), ?_⟩
            rw [if_pos ⟨hvalid, hk1⟩]
            exact List.mem_singleton_self _
          have hle := hvmax _ hsc
          rw [← hFeq, ← TermIndex.docScore_eq_boost_mul]
          exact hle
        · rw [← hFeq, TermIndex.claimUnigramTfIdf_of_not_mem logFn texts p.1 _ hk1,
            mul_zero]
          exact le_of_lt hpos

/-- Witness for C1: a 2-document corpus where the word `"aaa"` has `df = 1`
and appears only in the first document. -/
theorem C1_unigram_score_is_max_witness :
    (⟨['a', 'a', 'a'], 1, false⟩ : TermIndex.TermRec) ∈
      TermIndex.extract_terms (fun _ => 0) (fun _ => true) (fun _ => false)
        ["aaa".toList, "bbb ccc".toList] ∧
    (⟨['a', 'a', 'a'], 1, false⟩ : TermIndex.TermRec).tfidf_score =
      (if (fun _ => false) (⟨['a', 'a', 'a'], 1, false⟩ : TermIndex.TermRec).term = true then
          TermIndex.DOMAIN_BOOST else 1) *
        ((["aaa".toList, "bbb ccc".toList].map (fun t =>
          TermIndex.claimUnigramTfIdf (fun _ => 0) ["aaa".toList, "bbb ccc".toList]
            (⟨['a', 'a', 'a'], 1, false⟩ : TermIndex.TermRec).term
            (tokenizeTerms t))).foldr max 0) :=
  ⟨by with_unfolding_all decide,
    C1_unigram_score_is_max (fun _ => 0) (fun _ => true) (fun _ => false)
      ["aaa".toList, "bbb ccc".toList] ⟨['a', 'a', 'a'], 1, false⟩
      (by with_unfolding_all decide)⟩

namespace TermIndex

/-- Model of the digit class `[0-9]`. -/
def isDigitChar (c : Char) : Bool := '0' ≤ c && c ≤ '9'

/-- One match attempt of `ABBR_PATTERN = r'\b([A-ZА-ЯЁ]{2,})\s*\(([^)]+)\)'`
at the head of `l` (caller guarantees the word boundary): greedy uppercase
run of length ≥ 2, optional whitespace, then a parenthesized non-empty run
of non-`)` characters.  Returns the `(abbreviation, raw expansion)` pair
and the rest of the text after the closing paren. -/
def tryAbbr1 (l : List Char) : Option ((List Char × List Char) × List Char) :=
  let abbr := l.takeWhile isUpperAlpha
  let r1 := l.dropWhile isUpperAlpha
  if 2 ≤ abbr.length then
    match r1.dropWhile isSpaceChar with
    | '(' :: r3 =>
      let content := r3.takeWhile (fun c => !(c = ')'))
      match r3.dropWhile (fun c => !(c = ')')) with
      | ')' :: r5 => if content = [] then none else some ((abbr, content), r5)
      | _ => none
    | _ => none
  else none

/-- Left-to-right scan of `ABBR_PATTERN.finditer`: try a match at every
word-boundary position, resuming after each match (as `finditer` does).
`fuel` bounds the number of scan steps; every step consumes at least one
character, so `fuel = text length` never runs out. -/
def scanAbbr1 : ℕ → Bool → List Char → List (List Char × List Char)
  | 0, _, _ => []
  | _, _, [] => []
  | fuel + 1, prevW, c :: rest =>
    if !prevW && isUpperAlpha c then
      match tryAbbr1 (c :: rest) with
      | some (m, r5) => m :: scanAbbr1 fuel false r5
      | none => scanAbbr1 fuel (isWordChar c) rest
    else scanAbbr1 fuel (isWordChar c) rest

/-- All matches of pattern 1 in a text, with the expansion whitespace
collapsed (`' '.join(match.group(2).split())`). -/
def findAbbr1 (text : List Char) : List (List Char × List Char) :=
  (scanAbbr1 text.length false text).map (fun m => (m.1, collapseWS m.2))

/-- The parenthesized part of `REVERSE_PATTERN = r'([^(]+)\s*\(([A-ZА-ЯЁ]{2,})\)'`:
an uppercase run of length ≥ 2 followed immediately by `)`. -/
def tryAbbr2Paren (r2 : List Char) : Option (List Char × List Char) :=
  let abbr := r2.takeWhile isUpperAlpha
  match r2.dropWhile isUpperAlpha with
  | ')' :: r4 => if 2 ≤ abbr.length then some (abbr, r4) else none
  | _ => none

/-- Left-to-right scan of `REVERSE_PATTERN.finditer`: a match needs a
non-empty `(`-free prefix before the next `(` whose content is a valid
uppercase abbreviation; on failure the scan resumes after that `(`, since
`[^(]+` can never cross a parenthesis. -/
def scanAbbr2 : ℕ → List Char → List (List Char × List Char)
  | 0, _ => []
  | fuel + 1, l =>
    let pre := l.takeWhile (fun c => !(c = '('))
    match l.dropWhile (fun c => !(c = '(')) with
    | '(' :: r2 =>
      match tryAbbr2Paren r2 with
      | some (abbr, r4) =>
        if pre = [] then scanAbbr2 fuel r2
        else (abbr, pre) :: scanAbbr2 fuel r4
      | none => scanAbbr2 fuel r2
    | _ => []

/-- All matches of pattern 2 in a text, with the expansion stripped and
whitespace-collapsed (`' '.join(match.group(1).strip().split())`). -/
def findAbbr2 (text : List Char) : List (List Char × List Char) :=
  (scanAbbr2 text.length text).map (fun m => (m.1, collapseWS m.2))

/-- The single-letter-variable pattern `r'^[A-Z][0-9]$'`. -/
def isVarPattern (a : List Char) : Bool :=
  match a with
  | [c1, c2] => ('A' ≤ c1 && c1 ≤ 'Z') && isDigitChar c2
  | _ => false

/-- One formatted abbreviation record
(`{'abbreviation', 'expansion', 'frequency'}`). -/
structure AbbrRec where
  abbreviation : List Char
  expansion : List Char
  frequency : ℕ
deriving DecidableEq, Repr

/-- The `abbr_expansions[abbr].add(expansion)` update on the
`defaultdict(set)`, modelled as an insertion-ordered deduplicating list. -/
def addExp (a e : List Char) :
    List (List Char × List (List Char)) → List (List Char × List (List Char)) :=
  updAssoc a (fun es => if e ∈ es then es else es ++ [e]) [e]

theorem addExp_eq (a e : List Char) (acc : List (List Char × List (List Char))) :
    addExp a e acc = updAssoc a (fun es => if e ∈ es then es else es ++ [e]) [e] acc := rfl

/-- All `(abbreviation, collapsed expansion)` matches of both patterns over
the whole corpus, in scan order (pattern 1 then pattern 2, per text). -/
def allAbbrMatches (texts : List (List Char)) : List (List Char × List Char) :=
  (texts.map (fun t => findAbbr1 t ++ findAbbr2 t)).flatten

/-- Shallow embedding of `TermIndexBuilder.extract_abbreviations`.  The
loaded `abbr_stopwords` set is the predicate `stop`.  Python's set
iteration order is unspecified; the expansion join order follows insertion
order here, which does not affect the claims (frequency and ordering). -/
def extract_abbreviations (stop : List Char → Bool) (texts : List (List Char)) :
    List AbbrRec :=
  let ms := allAbbrMatches texts
  let abbr_expansions := ms.foldl (fun acc m => addExp m.1 m.2 acc) []
  let results := (abbr_expansions.filter (fun p => !stop p.1 && !isVarPattern p.1)).map
    (fun p => ⟨p.1,
      if p.2.length = 1 then p.2.headI else List.intercalate [';', ' '] p.2,
      p.2.length⟩)
  List.insertionSort (keyGE AbbrRec.frequency) results

/-- Result bundle of `TermIndexBuilder.build_index`. -/
structure BuildResult where
  terms : List TermRec
  bigrams : List TermRec
  trigrams : List TermRec
  abbreviations : List AbbrRec
  all_terms : List TermRec
  total : ℕ
  domain_count : ℕ
deriving Repr

/-- Shallow embedding of `TermIndexBuilder.build_index`: run the four
extractions, split unigrams+bigrams+trigrams into the domain and
non-domain buckets, sort each bucket by score descending (Python's stable
sort), concatenate domain bucket first and truncate to `TOP_WORDS_LIMIT`. -/
def build_index (logFn : ℚ → ℚ) (valid domain stop : List Char → Bool)
    (texts : List (List Char)) : BuildResult :=
  let terms := extract_terms logFn valid domain texts
  let bigrams := extract_ngrams logFn domain texts 2
  let trigrams := extract_ngrams logFn domain texts 3
  let abbreviations := extract_abbreviations stop texts
  let all_terms := terms ++ bigrams ++ trigrams
  let domain_terms := all_terms.filter (fun t => t.in_domain)
  let other_terms := all_terms.filter (fun t => !t.in_domain)
  let domainSorted := List.insertionSort (keyGE TermRec.tfidf_score) domain_terms
  let otherSorted := List.insertionSort (keyGE TermRec.tfidf_score) other_terms
  let diversified := domainSorted ++ otherSorted
  ⟨terms, bigrams, trigrams, abbreviations, diversified.take TOP_WORDS_LIMIT,
    terms.length + bigrams.length + trigrams.length + abbreviations.length,
    (all_terms.filter (fun t => t.in_domain)).length⟩

theorem all_takeWhile' (p : Char → Bool) (l : List Char) :
    (l.takeWhile p).all p = true := by
  induction l with
  | nil => rfl
  | cons c cs ih =>
    rw [List.takeWhile_cons]
    by_cases h : p c <;> simp [h, ih]

theorem tryAbbr1_some {l a e r : List Char}
    (h : tryAbbr1 l = some ((a, e), r)) :
    a = l.takeWhile isUpperAlpha ∧ 2 ≤ a.length := by
  simp only [tryAbbr1] at h
  split at h
  case isTrue h2 =>
    split at h
    case h_1 r3 heq =>
      split at h
      case h_1 r5 heq2 =>
        split at h
        case isTrue => exact absurd h (by simp)
        case isFalse =>
          injection h with h1
          injection h1 with h1 h2'
          injection h1 with ha he
          exact ⟨ha.symm, ha ▸ h2⟩
      case h_2 => exact absurd h (by simp)
    case h_2 => exact absurd h (by simp)
  case isFalse => exact absurd h (by simp)

theorem scanAbbr1_abbr_shape :
    ∀ (fuel : ℕ) (b : Bool) (l : List Char) (m : List Char × List Char),
      m ∈ scanAbbr1 fuel b l → 2 ≤ m.1.length ∧ m.1.all isUpperAlpha = true := by
  intro fuel
  induction fuel with
  | zero => intro b l m hm; simp [scanAbbr1] at hm
  | succ fuel ih =>
    intro b l m hm
    cases l with
    | nil => simp [scanAbbr1] at hm
    | cons c rest =>
      rw [scanAbbr1] at hm
      by_cases hcond : (!b && isUpperAlpha c) = true
      · rw [if_pos hcond] at hm
        cases htry : tryAbbr1 (c :: rest) with
        | none =>
          rw [htry] at hm
          exact ih _ _ m hm
        | some pr =>
          obtain ⟨⟨a, e⟩, r⟩ := pr
          rw [htry] at hm
          rcases List.mem_cons.mp hm with rfl | hm'
          · obtain ⟨ha, h2⟩ := tryAbbr1_some htry
            exact ⟨h2, by rw [ha]; exact all_takeWhile' isUpperAlpha _⟩
          · exact ih _ _ m hm'
      · rw [if_neg hcond] at hm
        exact ih _ _ m hm

theorem tryAbbr2Paren_some {r2 a r4 : List Char}
    (h : tryAbbr2Paren r2 = some (a, r4)) :
    a = r2.takeWhile isUpperAlpha ∧ 2 ≤ a.length := by
  simp only [tryAbbr2Paren] at h
  split at h
  case h_1 r heq =>
    split at h
    case isTrue h2 =>
      injection h with h1
      injection h1 with ha hr
      exact ⟨ha.symm, ha ▸ h2⟩
    case isFalse => exact absurd h (by simp)
  case h_2 => exact absurd h (by simp)

theorem scanAbbr2_abbr_shape :
    ∀ (fuel : ℕ) (l : List Char) (m : List Char × List Char),
      m ∈ scanAbbr2 fuel l → 2 ≤ m.1.length ∧ m.1.all isUpperAlpha = true := by
  intro fuel
  induction fuel with
  | zero => intro l m hm; simp [scanAbbr2] at hm
  | succ fuel ih =>
    intro l m hm
    rw [scanAbbr2] at hm
    split at hm
    case h_1 r2 heq =>
      cases htry : tryAbbr2Paren r2 with
      | none =>
        rw [htry] at hm
        exact ih _ m hm
      | some pr =>
        obtain ⟨a, r4⟩ := pr
        rw [htry] at hm
        have hm2 : m ∈ (if List.takeWhile (fun c => !decide (c = '(')) l = [] then
            scanAbbr2 fuel r2
          else (a, List.takeWhile (fun c => !decide (c = '(')) l) :: scanAbbr2 fuel r4) := hm
        by_cases hpre : List.takeWhile (fun c => !decide (c = '(')) l = []
        · rw [if_pos hpre] at hm2
          exact ih _ m hm2
        · rw [if_neg hpre] at hm2
          rcases List.mem_cons.mp hm2 with rfl | hm'
          · obtain ⟨ha, h2⟩ := tryAbbr2Paren_some htry
            exact ⟨h2, by rw [ha]; exact all_takeWhile' isUpperAlpha _⟩
          · exact ih _ m hm'
    case h_2 => simp at hm

theorem mem_allAbbrMatches_shape {texts : List (List Char)}
    {m : List Char × List Char} (hm : m ∈ allAbbrMatches texts) :
    2 ≤ m.1.length ∧ m.1.all isUpperAlpha = true := by
  rw [allAbbrMatches, List.mem_flatten] at hm
  obtain ⟨l, hl, hml⟩ := hm
  rw [List.mem_map] at hl
  obtain ⟨t, _, rfl⟩ := hl
  rcases List.mem_append.mp hml with h1 | h2
  · rw [findAbbr1, List.mem_map] at h1
    obtain ⟨m0, hm0, rfl⟩ := h1
    exact scanAbbr1_abbr_shape _ _ _ m0 hm0
  · rw [findAbbr2, List.mem_map] at h2
    obtain ⟨m0, hm0, rfl⟩ := h2
    exact scanAbbr2_abbr_shape _ _ m0 hm0

theorem isUpperAlpha_not_digitChar {c : Char} (h : isUpperAlpha c = true) :
    isDigitChar c = false := by
  rw [isUpperAlpha] at h
  rw [isDigitChar]
  by_cases h9 : c ≤ '9'
  · exfalso
    rcases Bool.or_eq_true _ _ |>.mp h with h' | hE
    · rcases Bool.or_eq_true _ _ |>.mp h' with hA | hC
      · have hle := of_decide_eq_true (Bool.and_eq_true _ _ |>.mp hA).1
        exact absurd (le_trans hle h9) (by decide)
      · have hle := of_decide_eq_true (Bool.and_eq_true _ _ |>.mp hC).1
        exact absurd (le_trans hle h9) (by decide)
    · have hc : c = 'Ё' := of_decide_eq_true hE
      rw [hc] at h9
      exact absurd h9 (by decide)
  · simp [h9]

/-- Structural keep-first deduplication fold underlying the per-key
expansion sets. -/
def dedupInto : List (List Char) → List (List Char) → List (List Char)
  | acc, [] => acc
  | acc, e :: t => dedupInto (if e ∈ acc then acc else acc ++ [e]) t

theorem dedupFold_some (es : List (List Char)) (acc : List (List Char)) :
    es.foldl (fun ob e => some (ob.elim [e] (fun l => if e ∈ l then l else l ++ [e])))
        (some acc) = some (dedupInto acc es) := by
  induction es generalizing acc with
  | nil => rfl
  | cons e t ih =>
    rw [List.foldl_cons]
    have hstep : (some ((some acc).elim [e] (fun l => if e ∈ l then l else l ++ [e])) :
        Option (List (List Char))) = some (if e ∈ acc then acc else acc ++ [e]) := rfl
    rw [hstep, ih]
    rfl

theorem dedupFold_eq (es : List (List Char)) :
    es.foldl (fun ob e => some (ob.elim [e] (fun l => if e ∈ l then l else l ++ [e]))) none =
      if es.isEmpty then none else some (dedupInto [] es) := by
  cases es with
  | nil => rfl
  | cons e t =>
    rw [List.foldl_cons]
    have hstep : (some (none.elim [e] (fun l => if e ∈ l then l else l ++ [e])) :
        Option (List (List Char))) = some [e] := rfl
    rw [hstep, dedupFold_some]
    simp [dedupInto]

theorem mem_dedupInto (x : List Char) :
    ∀ (es acc : List (List Char)), x ∈ dedupInto acc es ↔ x ∈ acc ∨ x ∈ es := by
  intro es
  induction es with
  | nil => intro acc; simp [dedupInto]
  | cons e t ih =>
    intro acc
    rw [dedupInto, ih]
    by_cases he : e ∈ acc
    · rw [if_pos he]
      constructor
      · rintro (h | h)
        · exact Or.inl h
        · exact Or.inr (List.mem_cons_of_mem _ h)
      · rintro (h | h)
        · exact Or.inl h
        · rcases List.mem_cons.mp h with h' | h'
          · exact Or.inl (h' ▸ he)
          · exact Or.inr h'
    · rw [if_neg he]
      constructor
      · rintro (h | h)
        · rcases List.mem_append.mp h with h' | h'
          · exact Or.inl h'
          · exact Or.inr (List.mem_cons.mpr (Or.inl (List.mem_singleton.mp h')))
        · exact Or.inr (List.mem_cons_of_mem _ h)
      · rintro (h | h)
        · exact Or.inl (List.mem_append.mpr (Or.inl h))
        · rcases List.mem_cons.mp h with h' | h'
          · exact Or.inl (List.mem_append.mpr (Or.inr (by simp [h'])))
          · exact Or.inr h'

theorem nodup_dedupInto :
    ∀ (es acc : List (List Char)), acc.Nodup → (dedupInto acc es).Nodup := by
  intro es
  induction es with
  | nil => intro acc h; exact h
  | cons e t ih =>
    intro acc h
    rw [dedupInto]
    apply ih
    by_cases he : e ∈ acc
    · rwa [if_pos he]
    · rw [if_neg he]
      simp [List.nodup_append, h, he]

theorem length_dedupInto_nil (es : List (List Char)) :
    (dedupInto [] es).length = es.toFinset.card := by
  have nd := nodup_dedupInto es [] List.nodup_nil
  have htf : (dedupInto [] es).toFinset = es.toFinset := by
    ext x
    simp [List.mem_toFinset, mem_dedupInto]
  rw [← List.toFinset_card_of_nodup nd, htf]

theorem stepOpt_dedup_eq (ms : List (List Char × List Char)) :
    ms.foldl (fun ob m => stepOpt (fun m es => if m.2 ∈ es then es else es ++ [m.2])
        (fun m => [m.2]) m ob) none =
      (ms.map Prod.snd).foldl
        (fun ob e => some (ob.elim [e] (fun es => if e ∈ es then es else es ++ [e]))) none := by
  rw [List.foldl_map]
  rfl

/-- The claim's "one uppercase letter followed by one digit" shape, over
both scripts. -/
def isVarShape (a : List Char) : Bool :=
  match a with
  | [c1, c2] => isUpperAlpha c1 && isDigitChar c2
  | _ => false

theorem partition_append_filter {l1 l2 : List TermRec}
    (hD : ∀ t ∈ l1, t.in_domain = true) (hO : ∀ t ∈ l2, t.in_domain = false) :
    l1 ++ l2 = (l1 ++ l2).filter (fun t => t.in_domain) ++
      (l1 ++ l2).filter (fun t => !t.in_domain) := by
  rw [List.filter_append, List.filter_append,
    List.filter_eq_self.mpr hD,
    List.filter_eq_nil_iff.mpr (fun a ha => by simp [hO a ha]),
    List.filter_eq_nil_iff.mpr (fun a ha => by simp [hD a ha]),
    List.filter_eq_self.mpr (fun a ha => by simp [hO a ha]),
    List.append_nil, List.nil_append]

end TermIndex

/-- C5: every abbreviation record's `frequency` equals the number of
DISTINCT whitespace-collapsed expansion strings accumulated for that
abbreviation across the whole corpus (a repeated identical pair counts
once), and the list is sorted by non-increasing frequency. -/
theorem C5_abbreviation_frequency_distinct (stop : List Char → Bool)
    (texts : List (List Char)) :
    List.Sorted (keyGE TermIndex.AbbrRec.frequency)
      (TermIndex.extract_abbreviations stop texts) ∧
    ∀ rec ∈ TermIndex.extract_abbreviations stop texts,
      rec.frequency =
        (((TermIndex.allAbbrMatches texts).filter
            (fun m => decide (m.1 = rec.abbreviation))).map Prod.snd).toFinset.card := by
  constructor
  · simp only [TermIndex.extract_abbreviations]
    exact sorted_keyGE_insertionSort _ _
  · intro rec hrec
    simp only [TermIndex.extract_abbreviations] at hrec
    rw [List.mem_insertionSort, List.mem_map] at hrec
    obtain ⟨p, hp, hrecp⟩ := hrec
    rw [List.mem_filter] at hp
    obtain ⟨hpmem, _⟩ := hp
    have hlook := lookupA_of_mem hpmem (by
      simp only [TermIndex.addExp_eq]
      exact nodupKeys_foldl_updAssoc Prod.fst
        (fun m es => if m.2 ∈ es then es else es ++ [m.2]) (fun m => [m.2]) _ [] (by simp))
    simp only [TermIndex.addExp_eq] at hlook
    rw [lookupA_foldl_updAssoc Prod.fst (fun m es => if m.2 ∈ es then es else es ++ [m.2])
      (fun m => [m.2]) _ [] p.1, lookupA_nil, TermIndex.stepOpt_dedup_eq,
      TermIndex.dedupFold_eq] at hlook
    subst hrecp
    dsimp only
    by_cases hes : (((TermIndex.allAbbrMatches texts).filter
        (fun m => decide (m.1 = p.1))).map Prod.snd).isEmpty
    · rw [if_pos hes] at hlook
      exact absurd hlook (by simp)
    · rw [if_neg hes] at hlook
      injection hlook with hlook
      rw [← hlook, TermIndex.length_dedupInto_nil]

/-- Witness for C5: the identical pair `NLP (natural language processing)`
occurring twice yields frequency 1. -/
theorem C5_abbreviation_frequency_distinct_witness :
    (⟨"NLP".toList, "natural language processing".toList, 1⟩ : TermIndex.AbbrRec) ∈
      TermIndex.extract_abbreviations (fun _ => false)
        ["Use NLP (natural language processing) today. NLP (natural language processing)!".toList] ∧
    (⟨"NLP".toList, "natural language processing".toList, 1⟩ : TermIndex.AbbrRec).frequency =
      (((TermIndex.allAbbrMatches
          ["Use NLP (natural language processing) today. NLP (natural language processing)!".toList]).filter
        (fun m => decide (m.1 =
          (⟨"NLP".toList, "natural language processing".toList, 1⟩ :
            TermIndex.AbbrRec).abbreviation))).map Prod.snd).toFinset.card :=
  ⟨by decide,
    (C5_abbreviation_frequency_distinct (fun _ => false)
      ["Use NLP (natural language processing) today. NLP (natural language processing)!".toList]).2
      ⟨"NLP".toList, "natural language processing".toList, 1⟩ (by decide)⟩

/-- C9: no abbreviation in the stopword set and no abbreviation of the
shape one-uppercase-letter-plus-one-digit (such as `"P1"`) ever appears in
the output of `extract_abbreviations`. -/
theorem C9_stopword_and_variable_abbrs_dropped (stop : List Char → Bool)
    (texts : List (List Char)) :
    ∀ rec ∈ TermIndex.extract_abbreviations stop texts,
      stop rec.abbreviation = false ∧
        TermIndex.isVarShape rec.abbreviation = false := by
  intro rec hrec
  simp only [TermIndex.extract_abbreviations] at hrec
  rw [List.mem_insertionSort, List.mem_map] at hrec
  obtain ⟨p, hp, hrecp⟩ := hrec
  rw [List.mem_filter] at hp
  obtain ⟨hpmem, hflag⟩ := hp
  obtain ⟨hstop, _⟩ := Bool.and_eq_true _ _ |>.mp hflag
  have hkey : p.1 ∈ ((TermIndex.allAbbrMatches texts).foldl
      (fun acc m => TermIndex.addExp m.1 m.2 acc) []).map Prod.fst :=
    List.mem_map_of_mem Prod.fst hpmem
  simp only [TermIndex.addExp_eq] at hkey
  rw [mem_keys_foldl_updAssoc] at hkey
  rcases hkey with hfalse | hkeym
  · simp at hfalse
  · rw [List.mem_map] at hkeym
    obtain ⟨m, hmmem, hm1⟩ := hkeym
    obtain ⟨_, hall⟩ := TermIndex.mem_allAbbrMatches_shape hmmem
    subst hrecp
    dsimp only
    refine ⟨by simpa using hstop, ?_⟩
    rw [← hm1]
    rcases hm : m.1 with _ | ⟨c1, _ | ⟨c2, rest⟩⟩
    · rfl
    · rfl
    · cases rest with
      | nil =>
        rw [TermIndex.isVarShape]
        have hc2 : isUpperAlpha c2 = true := by
          have := List.all_eq_true.mp (hm ▸ hall) c2 (by simp)
          exact this
        simp [TermIndex.isUpperAlpha_not_digitChar hc2]
      | cons c3 rest' => rfl

/-- Witness for C9 at a corpus containing a `P1 (x)`-shaped candidate. -/
theorem C9_stopword_and_variable_abbrs_dropped_witness :
    (⟨"AI".toList, "artificial intelligence".toList, 1⟩ : TermIndex.AbbrRec) ∈
      TermIndex.extract_abbreviations (fun _ => false)
        ["AI (artificial intelligence) and P1 (variable) here".toList] ∧
    ((fun _ => false) (⟨"AI".toList, "artificial intelligence".toList, 1⟩ :
        TermIndex.AbbrRec).abbreviation = false ∧
      TermIndex.isVarShape (⟨"AI".toList, "artificial intelligence".toList, 1⟩ :
        TermIndex.AbbrRec).abbreviation = false) :=
  ⟨by decide,
    C9_stopword_and_variable_abbrs_dropped (fun _ => false)
      ["AI (artificial intelligence) and P1 (variable) here".toList]
      ⟨"AI".toList, "artificial intelligence".toList, 1⟩ (by decide)⟩

/-- C2: in `build_index`, `all_terms` is the first `TOP_WORDS_LIMIT`
entries of the concatenation of the domain bucket (sorted by
non-increasing score) and the non-domain bucket (sorted by non-increasing
score); in particular every domain-flagged candidate precedes every
non-domain candidate. -/
theorem C2_two_bucket_ranking (logFn : ℚ → ℚ) (valid domain stop : List Char → Bool)
    (texts : List (List Char)) :
    ((TermIndex.build_index logFn valid domain stop texts).all_terms =
      (List.insertionSort (keyGE TermIndex.TermRec.tfidf_score)
          ((TermIndex.extract_terms logFn valid domain texts ++
            TermIndex.extract_ngrams logFn domain texts 2 ++
            TermIndex.extract_ngrams logFn domain texts 3).filter (fun t => t.in_domain)) ++
        List.insertionSort (keyGE TermIndex.TermRec.tfidf_score)
          ((TermIndex.extract_terms logFn valid domain texts ++
            TermIndex.extract_ngrams logFn domain texts 2 ++
            TermIndex.extract_ngrams logFn domain texts 3).filter
              (fun t => !t.in_domain))).take TermIndex.TOP_WORDS_LIMIT) ∧
    List.Sorted (keyGE TermIndex.TermRec.tfidf_score)
      (List.insertionSort (keyGE TermIndex.TermRec.tfidf_score)
        ((TermIndex.extract_terms logFn valid domain texts ++
          TermIndex.extract_ngrams logFn domain texts 2 ++
          TermIndex.extract_ngrams logFn domain texts 3).filter (fun t => t.in_domain))) ∧
    List.Sorted (keyGE TermIndex.TermRec.tfidf_score)
      (List.insertionSort (keyGE TermIndex.TermRec.tfidf_score)
        ((TermIndex.extract_terms logFn valid domain texts ++
          TermIndex.extract_ngrams logFn domain texts 2 ++
          TermIndex.extract_ngrams logFn domain texts 3).filter (fun t => !t.in_domain))) ∧
    (TermIndex.build_index logFn valid domain stop texts).all_terms =
      ((TermIndex.build_index logFn valid domain stop texts).all_terms.filter
          (fun t => t.in_domain)) ++
        ((TermIndex.build_index logFn valid domain stop texts).all_terms.filter
          (fun t => !t.in_domain)) := by
  refine ⟨rfl, sorted_keyGE_insertionSort _ _, sorted_keyGE_insertionSort _ _, ?_⟩
  set allc := TermIndex.extract_terms logFn valid domain texts ++
      TermIndex.extract_ngrams logFn domain texts 2 ++
      TermIndex.extract_ngrams logFn domain texts 3 with hallc
  set D := List.insertionSort (keyGE TermIndex.TermRec.tfidf_score)
      (allc.filter (fun t => t.in_domain)) with hDdef
  set O := List.insertionSort (keyGE TermIndex.TermRec.tfidf_score)
      (allc.filter (fun t => !t.in_domain)) with hOdef
  have hD : ∀ t ∈ D.take TermIndex.TOP_WORDS_LIMIT, t.in_domain = true := by
    intro t ht
    have hmem := (List.mem_insertionSort _).mp (List.take_subset _ _ ht)
    exact (List.mem_filter.mp hmem).2
  have hO : ∀ t ∈ O.take (TermIndex.TOP_WORDS_LIMIT - D.length), t.in_domain = false := by
    intro t ht
    have hmem := (List.mem_insertionSort _).mp (List.take_subset _ _ ht)
    simpa using (List.mem_filter.mp hmem).2
  show (D ++ O).take TermIndex.TOP_WORDS_LIMIT =
    ((D ++ O).take TermIndex.TOP_WORDS_LIMIT).filter (fun t => t.in_domain) ++
      ((D ++ O).take TermIndex.TOP_WORDS_LIMIT).filter (fun t => !t.in_domain)
  rw [List.take_append_eq_append_take]
  exact TermIndex.partition_append_filter hD hO

namespace NER

/-- Constant `MIN_ENTITY_FREQUENCY = 2` from `config.py`. -/
def MIN_ENTITY_FREQUENCY : ℕ := 2

/-- Constant `MIN_PERSON_FREQUENCY = 1` from `config.py`. -/
def MIN_PERSON_FREQUENCY : ℕ := 1

/-- Prefix test used by the substring search below. -/
def startsWithPat : List Char → List Char → Bool
  | [], _ => true
  | _ :: _, [] => false
  | a :: as, b :: bs => a = b && startsWithPat as bs

/-- Model of Python's substring containment `pat in s`. -/
def hasSubstr (pat : List Char) : List Char → Bool
  | [] => pat.isEmpty
  | b :: bs => startsWithPat pat (b :: bs) || hasSubstr pat bs

/-- The opaque pymorphy3 capability used by `ner.py`: nominative-case test
and inflection of `parse(word)[0]`, and the `Name`/`Surn`/`Patr` grammeme
tests used by person validation. -/
structure MorphCap where
  isNomn : List Char → Bool
  inflectNomn : List Char → Option (List Char)
  isName : List Char → Bool
  isSurn : List Char → Bool
  isPatr : List Char → Bool

/-- Shallow embedding of `NERExtractor._normalize_name`: collapse internal
whitespace, then replace the whole string through the location-abbreviation
map on an exact match. -/
def normalize_name (m : List Char → Option (List Char)) (name : List Char) : List Char :=
  let n := collapseWS name
  match m n with
  | some v => v
  | none => n

/-- Shallow embedding of `NERExtractor._normalize_location`: only when the
span has more than one word, the first word is inflected to nominative
(unchanged if already nominative, kept as-is if inflection fails,
capitalized otherwise), then `_normalize_name` is applied. -/
def normalize_location (cap : MorphCap) (m : List Char → Option (List Char))
    (name : List Char) : List Char :=
  let words := splitWS name
  let name2 :=
    if 1 < words.length then
      joinSpaces (match words with
        | [] => []
        | w :: rest =>
          (if cap.isNomn w then w
            else match cap.inflectNomn w with
              | some w2 => capitalizeStr w2
              | none => w) :: rest)
    else name
  normalize_name m name2

/-- Person pattern 1: `^[А-ЯЁA-Z][а-яёa-z]+\s+[А-ЯЁA-Z]\.\s*[А-ЯЁA-Z]\.`
(`re.match` only anchors at the start).  All adjacent character classes are
disjoint, so the greedy scan below is exactly the regex. -/
def matchPat1 (l : List Char) : Bool :=
  match l with
  | [] => false
  | c :: rest =>
    isUpperAlpha c &&
      !(rest.takeWhile isLowerAlpha).isEmpty &&
      (let r1 := rest.dropWhile isLowerAlpha
       !(r1.takeWhile isSpaceChar).isEmpty &&
         match r1.dropWhile isSpaceChar with
         | c2 :: '.' :: r3 =>
           isUpperAlpha c2 &&
             (match r3.dropWhile isSpaceChar with
               | c3 :: '.' :: _ => isUpperAlpha c3
               | _ => false)
         | _ => false)

/-- Person pattern 2: `^[А-ЯЁA-Z]\.\s*[А-ЯЁA-Z]\.\s+[А-ЯЁA-Z][а-яёa-z]+`. -/
def matchPat2 (l : List Char) : Bool :=
  match l with
  | c1 :: '.' :: r1 =>
    isUpperAlpha c1 &&
      (match r1.dropWhile isSpaceChar with
        | c2 :: '.' :: r3 =>
          isUpperAlpha c2 &&
            !(r3.takeWhile isSpaceChar).isEmpty &&
            (match r3.dropWhile isSpaceChar with
              | c3 :: r5 => isUpperAlpha c3 && !(r5.takeWhile isLowerAlpha).isEmpty
              | [] => false)
        | _ => false)
  | _ => false

/-- Person pattern 3: `^[А-ЯЁA-Z][а-яёa-z]+\s+[А-ЯЁA-Z][а-яёa-z]+`. -/
def matchPat3 (l : List Char) : Bool :=
  match l with
  | [] => false
  | c :: rest =>
    isUpperAlpha c &&
      !(rest.takeWhile isLowerAlpha).isEmpty &&
      (let r1 := rest.dropWhile isLowerAlpha
       !(r1.takeWhile isSpaceChar).isEmpty &&
         match r1.dropWhile isSpaceChar with
         | c2 :: r3 => isUpperAlpha c2 && !(r3.takeWhile isLowerAlpha).isEmpty
         | [] => false)

/-- The bibliographic-noise filter:
`any(term in name.lower() for term in ['parallel distrib', 'et al', 'proc', 'ieee'])`. -/
def containsNoise (name : List Char) : Bool :=
  let low := name.map lowerChar
  hasSubstr "parallel distrib".toList low || hasSubstr "et al".toList low ||
    hasSubstr "proc".toList low || hasSubstr "ieee".toList low

/-- Shallow embedding of `NERExtractor._validate_person`. -/
def validate_person (cap : MorphCap) (name : List Char) : Bool :=
  if name.length < 2 then false
  else if matchPat1 name || matchPat2 name || matchPat3 name then true
  else if containsNoise name then false
  else
    match splitWS name with
    | w :: _ => cap.isName w || cap.isSurn w || cap.isPatr w
    | [] => false

/-- Shallow embedding of `NERExtractor._validate_org`. -/
def validate_org (journalMarkers : List (List Char)) (name : List Char) : Bool :=
  if name.length < 3 then false
  else
    let low := name.map lowerChar
    let has_marker :=
      ["университет".toList, "институт".toList, "university".toList, "company".toList,
        "institute".toList, "corporation".toList].any (fun m => hasSubstr m low)
    if journalMarkers.any (fun m => hasSubstr m low) then false
    else has_marker

/-- Shallow embedding of `NERExtractor._validate_location`. -/
def validate_location (addressMarkers : List (List Char)) (name : List Char) : Bool :=
  if name.length < 3 then false
  else if addressMarkers.any (fun m => hasSubstr m (name.map lowerChar)) then false
  else true

/-- The four output categories (`'Персоналии'`, `'Организации'`,
`'Топонимы'`, `'Программные продукты'`). -/
inductive Category
  | person
  | org
  | loc
  | product
deriving DecidableEq, Repr

/-- All external state of `NERExtractor`: tagging capabilities per
language (natasha / spaCy spans as `(text, label)` pairs), the pymorphy
capability and the loaded lexicons. -/
structure NERConfig where
  cap : MorphCap
  tagRu : List Char → List (List Char × List Char)
  tagEn : List Char → List (List Char × List Char)
  locationAbbr : List Char → Option (List Char)
  journalMarkers : List (List Char)
  addressMarkers : List (List Char)
  products : List (List Char)

/-- Shallow embedding of `NERExtractor._extract_entities_ru`, per
category (the span loop appends to per-category lists in span order). -/
def extractEntitiesRu (cfg : NERConfig) (text : List Char) : Category → List (List Char)
  | .person => (cfg.tagRu text).filterMap (fun s =>
      if s.2 = "PER".toList then
        (let n := normalize_name cfg.locationAbbr s.1
         if validate_person cfg.cap n then some n else none)
      else none)
  | .org => (cfg.tagRu text).filterMap (fun s =>
      if s.2 = "ORG".toList then
        (let n := normalize_name cfg.locationAbbr s.1
         if validate_org cfg.journalMarkers n then some n else none)
      else none)
  | .loc => (cfg.tagRu text).filterMap (fun s =>
      if s.2 = "LOC".toList then
        (let n := normalize_location cfg.cap cfg.locationAbbr s.1
         if validate_location cfg.addressMarkers n then some n else none)
      else none)
  | .product => []

/-- Shallow embedding of `NERExtractor._extract_entities_en` (spaCy
labels; `PRODUCT` spans are taken verbatim with no validation). -/
def extractEntitiesEn (cfg : NERConfig) (text : List Char) : Category → List (List Char)
  | .person => (cfg.tagEn text).filterMap (fun s =>
      if s.2 = "PERSON".toList then
        (let n := normalize_name cfg.locationAbbr s.1
         if validate_person cfg.cap n then some n else none)
      else none)
  | .org => (cfg.tagEn text).filterMap (fun s =>
      if s.2 = "ORG".toList then
        (let n := normalize_name cfg.locationAbbr s.1
         if validate_org cfg.journalMarkers n then some n else none)
      else none)
  | .loc => (cfg.tagEn text).filterMap (fun s =>
      if s.2 = "GPE".toList ∨ s.2 = "LOC".toList then
        (let n := normalize_location cfg.cap cfg.locationAbbr s.1
         if validate_location cfg.addressMarkers n then some n else none)
      else none)
  | .product => (cfg.tagEn text).filterMap (fun s =>
      if s.2 = "PRODUCT".toList then some s.1 else none)

/-- A word position test for `\b`: is the character at index `i` a word
character. -/
def wordAt (l : List Char) (i : ℕ) : Bool :=
  (l[i]?).elim false isWordChar

/-- Word boundary `\b` at position `i` of `l`. -/
def wbAt (l : List Char) (i : ℕ) : Bool :=
  (decide (0 < i) && wordAt l (i - 1)) != wordAt l i

/-- Model of `re.search(r'\b' + re.escape(product) + r'\b', text, re.IGNORECASE)`:
a case-insensitive occurrence of the product with word boundaries on both
sides. -/
def searchProduct (product text : List Char) : Bool :=
  let t := text.map lowerChar
  let p := product.map lowerChar
  (List.range (t.length + 1)).any (fun i =>
    decide ((t.drop i).take p.length = p) && wbAt t i && wbAt t (i + p.length))

/-- Shallow embedding of `NERExtractor._extract_products`: one entry per
known product name found in the text (at most one per document). -/
def extract_products (cfg : NERConfig) (text : List Char) : List (List Char) :=
  cfg.products.filter (fun p => searchProduct p text)

/-- One corpus item's contribution per category: language-dispatched
entity extraction, with the lexicon product scan appended to the product
category. -/
def docEntities (cfg : NERConfig) (item : List Char × List Char) (cat : Category) :
    List (List Char) :=
  (if item.2 = "RU".toList then extractEntitiesRu cfg item.1 cat
    else extractEntitiesEn cfg item.1 cat) ++
    (if cat = .product then extract_products cfg item.1 else [])

/-- The concatenated `all_entities[category]` list over the whole corpus. -/
def allEntities (cfg : NERConfig) (corpus : List (List Char × List Char))
    (cat : Category) : List (List Char) :=
  (corpus.map (fun item => docEntities cfg item cat)).flatten

/-- One category's ranked result list in `NERExtractor.extract_from_corpus`:
count with `Counter`, drop entries below the category threshold, sort by
count descending (stable). -/
def resultsFor (cfg : NERConfig) (corpus : List (List Char × List Char))
    (cat : Category) : List (List Char × ℕ) :=
  let counter := firstSeenCounts (allEntities cfg corpus cat)
  let minFreq := if cat = .person then MIN_PERSON_FREQUENCY else MIN_ENTITY_FREQUENCY
  let filtered := counter.filter (fun p => decide (minFreq ≤ p.2))
  List.insertionSort (keyGE Prod.snd) filtered

/-- Shallow embedding of `NERExtractor.extract_from_corpus`: the
per-category ranked lists and the total number of surviving entities. -/
def extract_from_corpus (cfg : NERConfig) (corpus : List (List Char × List Char)) :
    (Category → List (List Char × ℕ)) × ℕ :=
  (fun cat => resultsFor cfg corpus cat,
    (resultsFor cfg corpus .person).length + (resultsFor cfg corpus .org).length +
      (resultsFor cfg corpus .loc).length + (resultsFor cfg corpus .product).length)

/-- Exact-match application of the location-abbreviation map, as the
claim describes it. -/
def applyAbbrMap (m : List Char → Option (List Char)) (s : List Char) : List Char :=
  (m s).getD s

/-- The first-word inflection step as the source performs it (unchanged
when already nominative, original kept when inflection fails, capitalized
otherwise). -/
def inflectWord (cap : MorphCap) (w : List Char) : List Char :=
  if cap.isNomn w then w
  else match cap.inflectNomn w with
    | some w2 => capitalizeStr w2
    | none => w

/-- Inflect the first word of a word list. -/
def inflectFirst (cap : MorphCap) : List (List Char) → List (List Char)
  | [] => []
  | w :: rest => inflectWord cap w :: rest

/-- Modelled from the claim's words (C6): normalization that inflects the
span's first word for spans of ANY word count (including single-word
spans) and then applies the abbreviation map; to be compared with the
source's `normalize_location`. -/
def claimNormalizeLocation (cap : MorphCap) (m : List Char → Option (List Char))
    (name : List Char) : List Char :=
  applyAbbrMap m (collapseWS (joinSpaces (inflectFirst cap (splitWS name))))

/-- A concrete morphological capability for the C6 counterexample: the
word `"xyz"` is not nominative and inflects to `"abc"`. -/
def cexCap : MorphCap where
  isNomn := fun w => !decide (w = "xyz".toList)
  inflectNomn := fun w => if w = "xyz".toList then some "abc".toList else none
  isName := fun _ => false
  isSurn := fun _ => false
  isPatr := fun _ => false

/-- A trivial morphological capability (all tags negative). -/
def plainCap : MorphCap where
  isNomn := fun _ => false
  inflectNomn := fun _ => none
  isName := fun _ => false
  isSurn := fun _ => false
  isPatr := fun _ => false

end NER

/-- C6 counterexample: a single-word Location span in an oblique form is
NOT inflected by `_normalize_location` (the source only inflects when the
span has more than one word), contradicting the claim's "of any word
count, including single-word spans". -/
theorem C6_single_word_not_inflected_counterexample :
    NER.normalize_location NER.cexCap (fun _ => none) "xyz".toList ≠
      NER.claimNormalizeLocation NER.cexCap (fun _ => none) "xyz".toList := by decide

/-- C6 amended: `_normalize_location` inflects the first word to the
nominative only for spans of MORE THAN ONE word (unchanged when already
nominative, original kept when inflection fails); single-word spans are
passed through unchanged; then the whitespace-normalized string is
replaced through the location-abbreviation map on an exact match. -/
theorem normalize_name_eq_applyAbbrMap (m : List Char → Option (List Char))
    (s : List Char) :
    NER.normalize_name m s = NER.applyAbbrMap m (collapseWS s) := by
  show (match m (collapseWS s) with
    | some v => v
    | none => collapseWS s) = (m (collapseWS s)).getD (collapseWS s)
  cases m (collapseWS s) <;> rfl

theorem C6_location_normalization_amended (cap : NER.MorphCap)
    (m : List Char → Option (List Char)) (name : List Char) :
    NER.normalize_location cap m name =
      NER.applyAbbrMap m (collapseWS
        (if 1 < (splitWS name).length then
          joinSpaces (NER.inflectFirst cap (splitWS name))
        else name)) := by
  simp only [NER.normalize_location]
  by_cases h : 1 < (splitWS name).length
  · rw [if_pos h, if_pos h]
    cases hw : splitWS name with
    | nil => rw [hw] at h; simp at h
    | cons w rest =>
      rw [normalize_name_eq_applyAbbrMap]
      rfl
  · rw [if_neg h, if_neg h, normalize_name_eq_applyAbbrMap]

/-- C7: `_validate_person` accepts a name exactly when it has length ≥ 2
and either matches one of the three name patterns, or (failing all
patterns) contains none of the bibliographic-noise phrases and the
morphological capability tags its first word as a given name, surname or
patronymic. -/
theorem C7_validate_person_iff (cap : NER.MorphCap) (name : List Char) :
    NER.validate_person cap name = true ↔
      2 ≤ name.length ∧
        (NER.matchPat1 name = true ∨ NER.matchPat2 name = true ∨ NER.matchPat3 name = true ∨
          (NER.containsNoise name = false ∧
            ∃ w rest, splitWS name = w :: rest ∧
              (cap.isName w || cap.isSurn w || cap.isPatr w) = true)) := by
  rw [NER.validate_person]
  by_cases hlen : name.length < 2
  · rw [if_pos hlen]
    simp only [Bool.false_eq_true, false_iff]
    rintro ⟨h2, _⟩
    omega
  · rw [if_neg hlen]
    have h2 : 2 ≤ name.length := by omega
    by_cases hpat : (NER.matchPat1 name || NER.matchPat2 name || NER.matchPat3 name) = true
    · rw [if_pos hpat]
      constructor
      · intro _
        refine ⟨h2, ?_⟩
        rcases Bool.or_eq_true _ _ |>.mp hpat with h12 | h3
        · rcases Bool.or_eq_true _ _ |>.mp h12 with h1 | hb
          · exact Or.inl h1
          · exact Or.inr (Or.inl hb)
        · exact Or.inr (Or.inr (Or.inl h3))
      · intro _
        rfl
    · rw [if_neg hpat]
      have hp : NER.matchPat1 name = false ∧ NER.matchPat2 name = false ∧
          NER.matchPat3 name = false := by
        refine ⟨?_, ?_, ?_⟩ <;>
          · apply Bool.eq_false_iff.mpr
            intro hx
            exact hpat (by simp [hx])
      by_cases hnoise : NER.containsNoise name = true
      · rw [if_pos hnoise]
        simp only [Bool.false_eq_true, false_iff]
        rintro ⟨_, hcase⟩
        rcases hcase with h1 | h2' | h3 | ⟨hnf, _⟩
        · rw [hp.1] at h1; exact absurd h1 (by simp)
        · rw [hp.2.1] at h2'; exact absurd h2' (by simp)
        · rw [hp.2.2] at h3; exact absurd h3 (by simp)
        · rw [hnoise] at hnf; exact absurd hnf (by simp)
      · rw [if_neg hnoise]
        have hnf : NER.containsNoise name = false := Bool.eq_false_iff.mpr hnoise
        cases hsplit : splitWS name with
        | nil =>
          constructor
          · intro hfalse
            exact absurd hfalse (by simp)
          · rintro ⟨_, hcase⟩
            rcases hcase with h1 | h2' | h3 | ⟨_, w, rest, heq, _⟩
            · rw [hp.1] at h1; exact absurd h1 (by simp)
            · rw [hp.2.1] at h2'; exact absurd h2' (by simp)
            · rw [hp.2.2] at h3; exact absurd h3 (by simp)
            · exact absurd heq (by simp)
        | cons w rest =>
          constructor
          · intro hmor
            exact ⟨h2, Or.inr (Or.inr (Or.inr ⟨hnf, w, rest, rfl, hmor⟩))⟩
          · rintro ⟨_, hcase⟩
            rcases hcase with h1 | h2' | h3 | ⟨_, w', rest', heq, htag⟩
            · rw [hp.1] at h1; exact absurd h1 (by simp)
            · rw [hp.2.1] at h2'; exact absurd h2' (by simp)
            · rw [hp.2.2] at h3; exact absurd h3 (by simp)
            · injection heq with hww hrr
              rw [← hww] at htag
              exact htag

example : NER.validate_person NER.plainCap "J. K. Rowling".toList = true := by decide

example : NER.validate_person NER.plainCap "Rowling J.K.".toList = true := by decide

example : NER.validate_person NER.plainCap "et al. 2020".toList = false := by decide

section CountLemmas

variable {α : Type*} [DecidableEq α] {β : Type*}

theorem countOcc_cons (k x : α) (l : List α) :
    countOcc k (x :: l) = countOcc k l + (if x = k then 1 else 0) := by
  rw [countOcc, countOcc, List.filter_cons]
  by_cases h : x = k <;> simp [h]

theorem countOcc_append (k : α) (l1 l2 : List α) :
    countOcc k (l1 ++ l2) = countOcc k l1 + countOcc k l2 := by
  rw [countOcc, countOcc, countOcc, List.filter_append, List.length_append]

theorem countOcc_flatten (k : α) (L : List (List α)) :
    countOcc k L.flatten = (L.map (fun l => countOcc k l)).sum := by
  induction L with
  | nil => rfl
  | cons l t ih => rw [List.flatten_cons, countOcc_append, List.map_cons, List.sum_cons, ih]

theorem countOcc_filter_nodup (k : α) (l : List α) (q : α → Bool)
    (hnd : l.Nodup) (hk : k ∈ l) :
    countOcc k (l.filter q) = if q k then 1 else 0 := by
  induction l with
  | nil => simp at hk
  | cons x t ih =>
    have hnd' : x ∉ t ∧ t.Nodup := by simpa using hnd
    rw [List.filter_cons]
    rcases List.mem_cons.mp hk with rfl | hkt
    · have ht0 : countOcc k (t.filter q) = 0 :=
        countOcc_eq_zero (fun hmem => hnd'.1 (List.mem_of_mem_filter hmem))

      by_cases hq : q k = true
      · rw [if_pos hq, if_pos hq, countOcc_cons, ht0, if_pos rfl]
      · rw [if_neg hq, ht0, if_neg hq]
    · have hxk : x ≠ k := fun h => hnd'.1 (h ▸ hkt)
      by_cases hq : q x = true
      · rw [if_pos hq, countOcc_cons, if_neg hxk, ih hnd'.2 hkt, Nat.add_zero]
      · rw [if_neg hq, ih hnd'.2 hkt]

theorem sum_map_ite_length (corpus : List β) (q : β → Bool) :
    (corpus.map (fun it => if q it then 1 else 0)).sum = (corpus.filter q).length := by
  induction corpus with
  | nil => rfl
  | cons it t ih =>
    rw [List.map_cons, List.sum_cons, List.filter_cons, ih]
    by_cases hq : q it
    · simp only [hq, if_pos, List.length_cons]
      omega
    · simp [hq]

theorem sum_map_addNat (l : List β) (f g : β → ℕ) :
    (l.map (fun x => f x + g x)).sum = (l.map f).sum + (l.map g).sum := by
  induction l with
  | nil => rfl
  | cons x t ih =>
    simp only [List.map_cons, List.sum_cons, ih]
    omega

end CountLemmas

namespace NER

theorem countOcc_filterMap_spans (k : List Char)
    (spans : List (List Char × List Char))
    (P : (List Char × List Char) → Prop) [DecidablePred P] :
    countOcc k (spans.filterMap (fun s => if P s then some s.1 else none)) =
      (spans.filter (fun s => decide (P s) && decide (s.1 = k))).length := by
  induction spans with
  | nil => rfl
  | cons s t ih =>
    rw [List.filterMap_cons, List.filter_cons]
    by_cases hP : P s
    · rw [if_pos hP]
      by_cases hsk : s.1 = k
      · rw [countOcc_cons, ih, if_pos hsk,
          if_pos (show (decide (P s) && decide (s.1 = k)) = true by simp [hP, hsk]),
          List.length_cons]
      · rw [countOcc_cons, ih, if_neg hsk,
          if_neg (show ¬(decide (P s) && decide (s.1 = k)) = true by simp [hsk]),
          Nat.add_zero]
    · rw [if_neg hP, ih,
        if_neg (show ¬(decide (P s) && decide (s.1 = k)) = true by simp [hP])]

theorem countOcc_docEntities_product (cfg : NERConfig) (it : List Char × List Char)
    (k : List Char) (hnd : cfg.products.Nodup) (hk : k ∈ cfg.products) :
    countOcc k (docEntities cfg it .product) =
      (if it.2 = "RU".toList then 0
        else ((cfg.tagEn it.1).filter
          (fun s => decide (s.2 = "PRODUCT".toList) && decide (s.1 = k))).length) +
      (if searchProduct k it.1 then 1 else 0) := by
  have h2 : countOcc k (extract_products cfg it.1) =
      if searchProduct k it.1 then 1 else 0 := by
    rw [extract_products]
    exact countOcc_filter_nodup k cfg.products (fun p => searchProduct p it.1) hnd hk
  have h1 : countOcc k (if it.2 = "RU".toList then extractEntitiesRu cfg it.1 .product
      else extractEntitiesEn cfg it.1 .product) =
      if it.2 = "RU".toList then 0
      else ((cfg.tagEn it.1).filter
        (fun s => decide (s.2 = "PRODUCT".toList) && decide (s.1 = k))).length := by
    by_cases h : it.2 = "RU".toList
    · rw [if_pos h, if_pos h]
      rfl
    · rw [if_neg h, if_neg h]
      exact countOcc_filterMap_spans k (cfg.tagEn it.1)
        (fun s => s.2 = "PRODUCT".toList)
  rw [docEntities, if_pos rfl, countOcc_append, h1, h2]

/-- A corpus item whose spaCy tagger labels the span `Python` as `PRODUCT`
twice, on a text that also contains the lexicon product `Python`. -/
def cexProdConfig : NERConfig where
  cap := plainCap
  tagRu := fun _ => []
  tagEn := fun _ => [("Python".toList, "PRODUCT".toList), ("Python".toList, "PRODUCT".toList)]
  locationAbbr := fun _ => none
  journalMarkers := []
  addressMarkers := []
  products := ["Python".toList]

def cexProdCorpus : List (List Char × List Char) :=
  [("use Python here".toList, "EN".toList)]

/-- A tagger-free configuration and a two-document corpus for the amended
product-frequency statement. -/
def witProdConfig : NERConfig where
  cap := plainCap
  tagRu := fun _ => []
  tagEn := fun _ => []
  locationAbbr := fun _ => none
  journalMarkers := []
  addressMarkers := []
  products := ["Python".toList]

def witProdCorpus : List (List Char × List Char) :=
  [("use Python here".toList, "EN".toList), ("Python again".toList, "EN".toList)]

end NER

/-- C10 (counterexample): the `'Программные продукты'` category merges
verbatim spaCy `PRODUCT` spans with the once-per-document lexicon scan, so
a lexicon product's reported frequency can exceed the number of documents
that contain it: with a tagger that labels `Python` as `PRODUCT` twice in
a single document that also matches the lexicon entry, the reported
frequency is 3 while only 1 document contains the product. -/
theorem C10_product_count_counterexample :
    NER.resultsFor NER.cexProdConfig NER.cexProdCorpus .product =
      [("Python".toList, 3)] ∧
    (NER.cexProdCorpus.filter
      (fun it => NER.searchProduct "Python".toList it.1)).length = 1 ∧
    (3 : ℕ) ≠ 1 := by
  decide

/-- C10 (amended): a lexicon product's aggregated count in
`extract_from_corpus` is the number of documents the word-boundary
case-insensitive search finds it in (so the lexicon scan itself does
contribute at most 1 per document), PLUS the number of verbatim spaCy
`PRODUCT` spans equal to it over the non-Russian documents. -/
theorem C10_product_frequency_amended (cfg : NER.NERConfig)
    (corpus : List (List Char × List Char)) (r : List Char × ℕ)
    (hnd : cfg.products.Nodup)
    (hmem : r ∈ NER.resultsFor cfg corpus .product)
    (hlex : r.1 ∈ cfg.products) :
    r.2 = (corpus.map (fun it =>
        if it.2 = "RU".toList then 0
        else ((cfg.tagEn it.1).filter
          (fun s => decide (s.2 = "PRODUCT".toList) && decide (s.1 = r.1))).length)).sum
      + (corpus.filter (fun it => NER.searchProduct r.1 it.1)).length := by
  obtain ⟨k, n⟩ := r
  dsimp only at hlex ⊢
  have hmem2 : (k, n) ∈ firstSeenCounts (NER.allEntities cfg corpus .product) := by
    have h1 : (k, n) ∈ List.insertionSort (keyGE Prod.snd)
        ((firstSeenCounts (NER.allEntities cfg corpus .product)).filter
          (fun p => decide (NER.MIN_ENTITY_FREQUENCY ≤ p.2))) := hmem
    exact List.mem_of_mem_filter ((List.perm_insertionSort _ _).mem_iff.mp h1)
  obtain ⟨hin, hcnt⟩ := mem_firstSeenCounts hmem2
  rw [hcnt, NER.allEntities, countOcc_flatten]
  have hmapeq : (corpus.map (fun item => NER.docEntities cfg item .product)).map
      (fun l => countOcc k l) =
      corpus.map (fun it =>
        (if it.2 = "RU".toList then 0
          else ((cfg.tagEn it.1).filter
            (fun s => decide (s.2 = "PRODUCT".toList) && decide (s.1 = k))).length) +
        (if NER.searchProduct k it.1 then 1 else 0)) := by
    rw [List.map_map]
    exact List.map_congr_left
      (fun it _ => NER.countOcc_docEntities_product cfg it k hnd hlex)
  rw [hmapeq, sum_map_addNat, sum_map_ite_length]

theorem C10_product_frequency_amended_witness :
    NER.witProdConfig.products.Nodup ∧
    ("Python".toList, (2 : ℕ)) ∈
      NER.resultsFor NER.witProdConfig NER.witProdCorpus .product ∧
    ("Python".toList, (2 : ℕ)).1 ∈ NER.witProdConfig.products ∧
    ("Python".toList, (2 : ℕ)).2 = (NER.witProdCorpus.map (fun it =>
        if it.2 = "RU".toList then 0
        else ((NER.witProdConfig.tagEn it.1).filter
          (fun s => decide (s.2 = "PRODUCT".toList) &&
            decide (s.1 = ("Python".toList, (2 : ℕ)).1))).length)).sum
      + (NER.witProdCorpus.filter
          (fun it => NER.searchProduct ("Python".toList, (2 : ℕ)).1 it.1)).length :=
  ⟨by decide, by decide, by decide,
    C10_product_frequency_amended NER.witProdConfig NER.witProdCorpus
      ("Python".toList, 2) (by decide) (by decide) (by decide)⟩

example : tokenizeTerms "Привет, nlp-world 42 ab".toList =
    [['п','р','и','в','е','т'], ['n','l','p'], ['w','o','r','l','d']] := by decide

example : tokenizeNgramWords "Привет, nlp-world 42 ab".toList =
    [['п','р','и','в','е','т'], ['n','l','p'], ['w','o','r','l','d'], ['a','b']] := by decide

example : ngramsOf 2 [['a','b'],['c','d'],['e','f']] =
    [['a','b',' ','c','d'], ['c','d',' ','e','f']] := by decide

example : splitWS "  hello   world ".toList = [['h','e','l','l','o'],['w','o','r','l','d']] := by
  decide

example : collapseWS "  hello \n  world ".toList = "hello world".toList := by decide

end CurseNlp
